import Mathlib

/-!
# Verification of the Party Planner CLI

A shallow embedding, in Lean 4, of `src/party_planner.py`: a command-line tool
that curates named contact lists (JSON files on disk), searches a cached copy of
the OS address book, drafts per-contact messages from a template, and sends them
one at a time through the OS messaging client after a per-message confirmation.

Modelling conventions:
* Python strings are Lean `String`s (sequences of unicode scalar values).  The
  Python string methods used by the program (`strip`, `lower`, `split`,
  `replace`, `in`, `isdigit`, `int(...)`) are modelled for the ASCII range that
  the program manipulates; this scope is noted on each definition.
* Fallible Python code is `Except PyErr` / `Option`; the exception classes the
  program distinguishes (`KeyError`, `IndexError`, `ValueError`,
  `AttributeError`) are the constructors of `PyErr`.
* Calls to the outside world (the Messages app, the Contacts app, `input()`)
  are oracles threaded in as explicit lists that the control flow consumes.
* The on-disk JSON store is modelled to the byte level: `dumps` reproduces
  `json.dump(..., indent=2)` (with its default `ensure_ascii=True` escaping,
  including surrogate pairs), and `loads` models `json.loads` on the fragment
  of JSON the program can encounter (floats, `NaN`/`Infinity` and the
  leading-zero restriction on numbers are outside the model; lone surrogate
  escapes, which Lean `Char` cannot carry, are rejected).

The file is laid out as definitions first, theorems second.
-/

namespace PartyPlanner

/-! ## Python string primitives -/

/-- Whitespace characters stripped by Python `str.strip()` (ASCII range:
space, tab, newline, carriage return, vertical tab, form feed). -/
def isPyWs (c : Char) : Bool :=
  c = ' ' || c = '\t' || c = '\n' || c = '\r' || c = Char.ofNat 11 || c = Char.ofNat 12

/-- Python `str.strip()`: drop leading and trailing whitespace. -/
def pyStrip (s : String) : String :=
  String.mk (((s.toList.dropWhile isPyWs).reverse.dropWhile isPyWs).reverse)

/-- Python `str.lower()` restricted to ASCII letters (the only case mapping the
program's inputs exercise). -/
def pyLowerChar (c : Char) : Char :=
  if 'A' ≤ c ∧ c ≤ 'Z' then Char.ofNat (c.toNat + 32) else c

/-- Python `str.lower()` (ASCII scope). -/
def pyLower (s : String) : String := String.mk (s.toList.map pyLowerChar)

/-- Python `str.split()` with no separator: whitespace-delimited tokens, with
no empty tokens. -/
def pySplit (s : String) : List String :=
  ((s.toList.splitOnP (fun c => isPyWs c)).filter (fun w => ¬w.isEmpty)).map String.mk

/-- Python `needle in hay` on strings: substring test. -/
def pyIn (needle hay : String) : Bool :=
  hay.toList.tails.any (fun t => needle.toList.isPrefixOf t)

/-- ASCII decimal digit test (`str.isdigit` on the ASCII range). -/
def isAsciiDigit (c : Char) : Bool := '0' ≤ c ∧ c ≤ '9'

/-- Python `s.isdigit()` (ASCII scope): non-empty and all digits. -/
def pyIsDigit (s : String) : Bool := ¬s.toList.isEmpty && s.toList.all isAsciiDigit

/-- Python `int(s)` on an already-stripped string: optional sign followed by at
least one digit (numeric underscores and non-ASCII digits are out of scope). -/
def pyInt (s : String) : Option Int :=
  match s.toList with
  | '-' :: ds => if ds ≠ [] ∧ ds.all isAsciiDigit
      then some (-(ds.foldl (fun a c => 10 * a + (c.toNat - 48)) 0 : Nat)) else none
  | '+' :: ds => if ds ≠ [] ∧ ds.all isAsciiDigit
      then some ((ds.foldl (fun a c => 10 * a + (c.toNat - 48)) 0 : Nat) : Int) else none
  | ds => if ds ≠ [] ∧ ds.all isAsciiDigit
      then some ((ds.foldl (fun a c => 10 * a + (c.toNat - 48)) 0 : Nat) : Int) else none

/-! ## The contact record

The program passes contacts around as dicts with a `'name'` and a `'phone'`
key, and — for contacts fetched from the Mac address book — a `'first_name'`
key; `add_contact_manually` builds dicts without it.  `first_name : Option
String` models presence or absence of that key. -/

structure Contact where
  name : String
  first_name : Option String
  phone : String
  deriving DecidableEq, Repr

/-- The Python exception classes the program's control flow distinguishes. -/
inductive PyErr where
  | keyError (k : String)
  | indexError
  | valueError
  | attributeError
  deriving DecidableEq, Repr

deriving instance DecidableEq for Except

/-! ## `draft_message` (src/party_planner.py lines 405-412)

```python
def draft_message(template, contact):
    first_name = contact.get('first_name') or contact['name'].split()[0] if contact['name'] else ""
    return template.format(name=first_name, first_name=first_name, phone=contact['phone'])
```

By Python precedence the first line parses as
`(contact.get('first_name') or contact['name'].split()[0]) if contact['name'] else ""`,
and `split()[0]` raises `IndexError` when the (non-empty) name is all
whitespace. -/

/-- Python `contact['name'].split()[0]`: the first whitespace token, raising
`IndexError` when there is none. -/
def splitIndexZero (s : String) : Except PyErr String :=
  match pySplit s with
  | [] => .error .indexError
  | t :: _ => .ok t

/-- The `first_name` value computed by `draft_message` (the first line of the
function, with Python conditional-expression precedence and truthiness). -/
def firstNameOf (c : Contact) : Except PyErr String :=
  if c.name = "" then .ok ""
  else
    match c.first_name with
    | some f => if f = "" then splitIndexZero c.name else .ok f
    | none => splitIndexZero c.name

/-! ### `str.format`

`template.format(name=..., first_name=..., phone=...)` is modelled for
brace-delimited replacement fields and doubled-brace escapes.  CPython parses
a field far enough to locate its *key* — the field name ends at the first
conversion (`!`) or format-spec (`:`) marker (an index bracket `[...]` is
skipped), and the key is the name's leading part before any attribute (`.`)
or index (`[`) accessor — and looks the key up *before* touching conversion,
accessor or format-spec syntax, so `"{foo:bar}"` raises `KeyError('foo')`.  An
empty or all-digit key is a positional reference, `IndexError` here since no
positional arguments are supplied.  What a *resolved* key's conversion,
accessor or format-spec suffix produces (`repr`, `getattr`, the format
mini-language, nested specs with inner braces) is outside the model, which
returns the key's bare value; no theorem quantifies over such templates. -/

def lbrace : Char := '{'

def rbrace : Char := '}'

/-- The key CPython's `str.format` looks up for a replacement field:
the leading part of the field before any of `!`, `:`, `.`, `[`
(`"foo:bar"` is keyed by `foo`, `"a.b!r"` by `a`). -/
def fieldKey (field : List Char) : List Char :=
  field.takeWhile (fun c => ¬(c = '!' ∨ c = ':' ∨ c = '.' ∨ c = '['))

/-- CPython's field parser reaches the key lookup only when every index
bracket opened in the field name closes inside the field, and a conversion
marker `!` is followed by exactly one character that ends the field or
introduces a format spec; otherwise `ValueError` is raised before any lookup.
The Bool argument is bracket-skipping mode. -/
def fieldParseOK : Bool → List Char → Bool
  | false, [] => true
  | true, [] => false
  | true, c :: rest => if c = ']' then fieldParseOK false rest else fieldParseOK true rest
  | false, c :: rest =>
    if c = ':' then true
    else if c = '!' then
      match rest with
      | [_] => true
      | _ :: ':' :: _ => true
      | _ => false
    else if c = '[' then fieldParseOK true rest
    else fieldParseOK false rest

/-- The value substituted for a completed replacement field, or the exception
it raises.  The parse must reach the key lookup (`ValueError` otherwise); the
key resolves among the three keyword arguments; an empty or all-digit key is
a positional reference with no positional arguments (`IndexError`); any other
key is a `KeyError` naming the key, whatever follows it in the field.  For a
resolved key the model returns the bare value: the suffix's effect is outside
the model. -/
def fieldValue (first phone field : List Char) : Except PyErr (List Char) :=
  if fieldParseOK false field then
    if fieldKey field = "name".toList ∨ fieldKey field = "first_name".toList then .ok first
    else if fieldKey field = "phone".toList then .ok phone
    else if (fieldKey field).all isAsciiDigit then .error .indexError
    else .error (.keyError (String.mk (fieldKey field)))
  else .error .valueError

/-- State of the `str.format` scanner: literal text, literal text right after
a lone closing brace (which must be doubled), or inside a replacement field
with the field name so far, reversed. -/
inductive FmtMode where
  | lit
  | litRbrace
  | field (acc : List Char)

/-- Scanner for `str.format`: doubled braces are escapes, a lone closing
brace or an unterminated field is a `ValueError`, and a completed field — the
bracketed text up to the closing brace — is resolved by `fieldValue`, which
performs CPython's key/conversion/spec split.  A brace inside a field is
`ValueError` (CPython permits inner braces only as nested fields of a format
spec, outside the model). -/
def pyFormatAux (first phone : List Char) : FmtMode → List Char → Except PyErr (List Char)
  | .lit, [] => .ok []
  | .litRbrace, [] => .error .valueError
  | .field _, [] => .error .valueError
  | .lit, c :: rest =>
    if c = lbrace then pyFormatAux first phone (.field []) rest
    else if c = rbrace then pyFormatAux first phone .litRbrace rest
    else (pyFormatAux first phone .lit rest).map (fun t => c :: t)
  | .litRbrace, c :: rest =>
    if c = rbrace then (pyFormatAux first phone .lit rest).map (fun t => rbrace :: t)
    else .error .valueError
  | .field acc, c :: rest =>
    if c = rbrace then
      (fieldValue first phone acc.reverse).bind (fun v =>
        (pyFormatAux first phone .lit rest).map (fun t => v ++ t))
    else if c = lbrace then
      if acc = [] then (pyFormatAux first phone .lit rest).map (fun t => lbrace :: t)
      else .error .valueError
    else pyFormatAux first phone (.field (c :: acc)) rest

/-- `template.format(name=first, first_name=first, phone=phone)`. -/
def pyFormat (template first phone : String) : Except PyErr String :=
  (pyFormatAux first.toList phone.toList .lit template.toList).map String.mk

/-- `draft_message(template, contact)`. -/
def draft_message (template : String) (c : Contact) : Except PyErr String := do
  let first ← firstNameOf c
  pyFormat template first c.phone

/-! ## The claim-side description of template substitution (C2)

Claim C2 reads a template as a sequence of *items*: ordinary characters, the
three placeholders, and (as the amendment notes) doubled-brace escapes.  The
claimed output is the same sequence with each placeholder replaced.  `TItem`
is that decomposition. -/

/-- One item of a template, as the specification describes templates. -/
inductive TItem where
  | lit (c : Char)
  | phName
  | phFirst
  | phPhone
  | escOpen
  | escClose
  deriving DecidableEq, Repr

/-- The source text of a template item. -/
def itemText : TItem → List Char
  | .lit c => [c]
  | .phName => "{name}".toList
  | .phFirst => "{first_name}".toList
  | .phPhone => "{phone}".toList
  | .escOpen => [lbrace, lbrace]
  | .escClose => [rbrace, rbrace]

/-- What claim C2 says each item becomes in the drafted message. -/
def renderItem (first phone : List Char) : TItem → List Char
  | .lit c => [c]
  | .phName => first
  | .phFirst => first
  | .phPhone => phone
  | .escOpen => [lbrace]
  | .escClose => [rbrace]

/-- A literal item must be an ordinary character: braces appear only in
placeholders and escapes. -/
def itemOK : TItem → Prop
  | .lit c => c ≠ lbrace ∧ c ≠ rbrace
  | _ => True

instance (i : TItem) : Decidable (itemOK i) := by
  cases i <;> simp [itemOK] <;> infer_instance

/-- The first-name value as claim C2 describes it: the contact's `first_name`
field when present and non-empty, otherwise the first whitespace-separated
token of the name. -/
def specFirstName (c : Contact) : String :=
  match c.first_name with
  | some f => if f ≠ "" then f else (pySplit c.name).headI
  | none => (pySplit c.name).headI

/-! ## `interactive_contact_search` (src/party_planner.py lines 146-226)

One iteration of the search loop reads a query; the reserved commands are
checked on the lowered, stripped input, then an empty query and a pure
number/comma/space "selection" are skipped, and anything else is searched by
case-insensitive substring over the full contact list. -/

/-- What one entered query makes the search loop do. -/
inductive SearchAction where
  | finish
  | doSync
  | showList
  | skip
  | selectHint
  | results (found : List Contact)
  deriving DecidableEq, Repr

/-- Python `query.replace(",", "").replace(" ", "").isdigit()` (line 179):
dropping commas and spaces leaves a non-empty all-digit string. -/
def isSelectionInput (q : String) : Bool :=
  pyIsDigit (String.mk (q.toList.filter (fun c => ¬(c = ',' ∨ c = ' '))))

/-- The search predicate of line 185: `query.lower() in c['name'].lower()`. -/
def nameMatches (query : String) (c : Contact) : Bool :=
  pyIn (pyLower query) (pyLower c.name)

/-- One query of the search loop, from the raw `input()` line (the code strips
it on line 155). -/
def searchStep (all : List Contact) (raw : String) : SearchAction :=
  let query := pyStrip raw
  if pyLower query = "done" then .finish
  else if pyLower query = "sync" then .doSync
  else if pyLower query = "list" then .showList
  else if query = "" then .skip
  else if isSelectionInput query then .selectHint
  else .results (all.filter (nameMatches query))

/-- `any(c['phone'] == contact['phone'] for c in selected_contacts)`
(lines 194 and 218). -/
def phoneAlready (sel : List Contact) (c : Contact) : Bool :=
  sel.any (fun x => x.phone == c.phone)

/-- The selected-contact parser of lines 208-210: split the (stripped,
lowered) selection on commas, convert each piece to an int, and keep the
in-range matches; any conversion failure aborts the whole selection. -/
def parseSelection (s : String) (found : List Contact) : Option (List Contact) :=
  match (s.splitOn ",").mapM (fun x => pyInt (pyStrip x)) with
  | none => none
  | some ns => some ((ns.map (fun n => n - 1)).filterMap (fun i =>
      if 0 ≤ i then found[i.toNat]? else none))

/-- The add loop of lines 216-221: append each contact whose phone is not
already in the selected list. -/
def addContacts (sel : List Contact) : List Contact → List Contact
  | [] => sel
  | c :: cs => if phoneAlready sel c then addContacts sel cs else addContacts (sel ++ [c]) cs

/-- The whole interactive search-and-select loop.  `inputs` is the stream of
`input()` lines; `fetches` is the stream of contact lists a `sync` brings back
from the Contacts app.  Running out of input ends the loop with the current
selection (the Python would die on `EOFError` there, with the same selected
list). -/
def searchLoop (fetches : List (List Contact)) (all sel : List Contact) :
    List String → List Contact
  | [] => sel
  | raw :: rest =>
    match searchStep all raw with
    | .finish => sel
    | .doSync => searchLoop fetches.tail fetches.headI sel rest
    | .showList => searchLoop fetches all sel rest
    | .skip => searchLoop fetches all sel rest
    | .selectHint => searchLoop fetches all sel rest
    | .results found =>
      if found.isEmpty then searchLoop fetches all sel rest
      else
        match rest with
        | [] => sel
        | selRaw :: rest2 =>
          let s := pyLower (pyStrip selRaw)
          if s = "" then searchLoop fetches all sel rest2
          else if s = "a" then searchLoop fetches all (addContacts sel found) rest2
          else
            match parseSelection s found with
            | none => searchLoop fetches all sel rest2
            | some toAdd => searchLoop fetches all (addContacts sel toAdd) rest2

/-! ## `fetch_contacts_from_mac` (src/party_planner.py lines 111-126)

The records built from the text the Contacts-app script prints: the output is
stripped, split into lines, and each line holding a `|` and at least two
`|`-separated parts becomes one record. -/

/-- The record one output line produces (lines 113-122 of the loop body). -/
def macLineContact (line : String) : Option Contact :=
  if pyIn "|" line then
    match line.splitOn "|" with
    | p0 :: p1 :: _ =>
      let full_name := pyStrip p0
      let first_name := if full_name ≠ "" then (pySplit full_name).headI else ""
      some ⟨full_name, some first_name, pyStrip p1⟩
    | _ => none
  else none

/-- The contact list built from the script's standard output (lines 111-122). -/
def fetch_contacts_from_mac (stdout : String) : List Contact :=
  ((pyStrip stdout).splitOn "\n").filterMap macLineContact

/-- The record claim C7 describes for one output line: one contact per line
containing `|` that splits into at least two parts, whose name is the text
before the first `|` stripped, whose phone is the text between the first and
second `|` (or to end of line) stripped, and whose first name is the first
whitespace-separated token of the name, empty when the name is empty. -/
def specMacLine (line : String) : Option Contact :=
  let parts := line.splitOn "|"
  if pyIn "|" line ∧ 2 ≤ parts.length then
    let name := pyStrip parts.headI
    let phone := pyStrip parts.tail.headI
    let first := if name = "" then "" else (pySplit name).headI
    some ⟨name, some first, phone⟩
  else none

/-! ## `send_texts_flow` (src/party_planner.py lines 478-539)

The flow reads a template, then walks the contact list in order; for each
contact it drafts a message and loops on a confirm prompt: `s` or Enter sends
through `send_imessage` and moves on, `e` reads a replacement message and
re-prompts, `n` moves on without sending, `q` ends the flow, and anything else
just re-prompts.  A `KeyError` from drafting is reported as an invalid
placeholder and ends the flow; other drafting exceptions propagate.

The model records the observable steps as a list of events.  `input()` lines
and the success of each `send_imessage` call are oracles consumed in order;
running out of input is the Python `EOFError` crash. -/

/-- One observable step of the send-texts flow.  `i` is the 1-based position
of the contact being processed; `msg` in `entered` and `editInput` is the
message drafted at the moment that line was read. -/
inductive FlowEv where
  | prompted (i : Nat) (cname msg : String)
  | entered (i : Nat) (msg raw : String)
  | editInput (i : Nat) (msg raw : String)
  | called (i : Nat) (phone msg : String) (ok : Bool)
  deriving DecidableEq, Repr

/-- How the flow ends. -/
inductive FlowOutcome where
  | finished
  | quitEarly
  | noContacts
  | emptyTemplate
  | invalidPlaceholder (k : String)
  | crashed (e : PyErr)
  | outOfInput
  deriving DecidableEq, Repr

/-- How one contact's confirm loop ends: move to the next contact, `q`, or
input exhausted. -/
inductive InnerRes where
  | proceeded
  | quitted
  | ranOut
  deriving DecidableEq, Repr

/-- Output of one contact's confirm loop. -/
structure BlockOut where
  evs : List FlowEv
  rem : List String
  orc : List Bool
  res : InnerRes
  deriving Repr

/-- A confirming input at the `[Enter/S/E/N/Q]` prompt: `s` or empty, after
stripping and lowering as the code does. -/
def confirms (raw : String) : Prop :=
  pyLower (pyStrip raw) = "s" ∨ pyLower (pyStrip raw) = ""

instance (raw : String) : Decidable (confirms raw) := by
  unfold confirms
  infer_instance

/-- The per-contact confirm loop (the `while True` of lines 516-537). -/
def promptLoop (i : Nat) (c : Contact) (oracle : List Bool) (msg : String) :
    List String → BlockOut
  | [] => ⟨[.prompted i c.name msg], [], oracle, .ranOut⟩
  | raw :: rest =>
    if pyLower (pyStrip raw) = "s" ∨ pyLower (pyStrip raw) = "" then
      ⟨[.prompted i c.name msg, .entered i msg raw, .called i c.phone msg oracle.headI],
        rest, oracle.tail, .proceeded⟩
    else if pyLower (pyStrip raw) = "e" then
      match rest with
      | [] => ⟨[.prompted i c.name msg, .entered i msg raw], [], oracle, .ranOut⟩
      | raw2 :: rest2 =>
        let r := promptLoop i c oracle (if pyStrip raw2 = "" then msg else pyStrip raw2) rest2
        ⟨.prompted i c.name msg :: .entered i msg raw :: .editInput i msg raw2 :: r.evs,
          r.rem, r.orc, r.res⟩
    else if pyLower (pyStrip raw) = "n" then
      ⟨[.prompted i c.name msg, .entered i msg raw], rest, oracle, .proceeded⟩
    else if pyLower (pyStrip raw) = "q" then
      ⟨[.prompted i c.name msg, .entered i msg raw], rest, oracle, .quitted⟩
    else
      let r := promptLoop i c oracle msg rest
      ⟨.prompted i c.name msg :: .entered i msg raw :: r.evs, r.rem, r.orc, r.res⟩

/-- The `for i, contact in enumerate(contacts, 1)` walk (lines 509-537). -/
def contactsLoop (template : String) : Nat → List Bool → List Contact → List String →
    List FlowEv × FlowOutcome
  | _, _, [], _ => ([], .finished)
  | i, oracle, c :: cs, inputs =>
    match draft_message template c with
    | .error (.keyError k) => ([], .invalidPlaceholder k)
    | .error e => ([], .crashed e)
    | .ok msg =>
      let r := promptLoop i c oracle msg inputs
      match r.res with
      | .proceeded =>
        let rest := contactsLoop template (i + 1) r.orc cs r.rem
        (r.evs ++ rest.1, rest.2)
      | .quitted => (r.evs, .quitEarly)
      | .ranOut => (r.evs, .outOfInput)

/-- The built-in template offered as choice `1` (line 497). -/
def defaultTemplate : String := "Hey {name}! Party at my place Friday at 8, you in?"

/-- `send_texts_flow(contacts)`: empty-list guard, template entry (first input
line), the `"1"` shortcut, the empty-template guard, then the contact walk. -/
def sendTextsFlow (contacts : List Contact) (inputs : List String) (oracle : List Bool) :
    List FlowEv × FlowOutcome :=
  if contacts.isEmpty then ([], .noContacts)
  else
    match inputs with
    | [] => ([], .outOfInput)
    | t0 :: rest =>
      let t1 := pyStrip t0
      let template := if t1 = "1" then defaultTemplate else t1
      if template = "" then ([], .emptyTemplate)
      else contactsLoop template 1 oracle contacts rest

/-- The contact position an event belongs to. -/
def evIdx : FlowEv → Nat
  | .prompted i _ _ => i
  | .entered i _ _ => i
  | .editInput i _ _ => i
  | .called i _ _ _ => i

/-- Whether an event is a messaging-adapter call. -/
def isCalled : FlowEv → Bool
  | .called _ _ _ _ => true
  | _ => false

/-- The recipient of an adapter-call event. -/
def callRecipient : FlowEv → Option String
  | .called _ p _ _ => some p
  | _ => none

/-- The contact position of an adapter-call event. -/
def callIdx : FlowEv → Option Nat
  | .called j _ _ _ => some j
  | _ => none

/-! ## The JSON store (src/party_planner.py lines 30-76)

`save_list`/`load_list` and the contacts cache read and write JSON documents
through `json.dump(..., indent=2)` and `json.load`.  Both are modelled to the
character level: `dumps` reproduces CPython's indented, `ensure_ascii` output
(shortcut escapes, `\uXXXX`, surrogate pairs), and `loads` models
`json.loads` on the fragment the program can store (ints but not floats or
`NaN`/`Infinity`; the no-leading-zero rule on numbers is not enforced; lone
surrogate escapes, unrepresentable in a Lean `Char`, are rejected). -/

/-- A JSON value.  Numbers are integers: the program stores only strings,
objects and arrays, and floats are outside the model. -/
inductive Json where
  | null : Json
  | bool (b : Bool) : Json
  | int (n : Int) : Json
  | str (s : String) : Json
  | arr (xs : List Json) : Json
  | obj (kvs : List (String × Json)) : Json

mutual

/-- Structural equality of JSON values. -/
def Json.beq : Json → Json → Bool
  | .null, .null => true
  | .bool a, .bool b => a == b
  | .int a, .int b => a == b
  | .str a, .str b => a == b
  | .arr a, .arr b => Json.beqList a b
  | .obj a, .obj b => Json.beqFields a b
  | _, _ => false

/-- Structural equality, elementwise. -/
def Json.beqList : List Json → List Json → Bool
  | [], [] => true
  | u :: us, w :: ws => Json.beq u w && Json.beqList us ws
  | _, _ => false

/-- Structural equality, fieldwise. -/
def Json.beqFields : List (String × Json) → List (String × Json) → Bool
  | [], [] => true
  | (ka, va) :: kvs, (kb, vb) :: kws => ka == kb && Json.beq va vb && Json.beqFields kvs kws
  | _, _ => false

end

/-- A key list with no repeats, as a Python dict always has. -/
def keysNodupB : List String → Bool
  | [] => true
  | k :: ks => (!ks.contains k) && keysNodupB ks

mutual

/-- A value every Python object graph maps to: object key lists never repeat
a key. -/
def wfB : Json → Bool
  | .null => true
  | .bool _ => true
  | .int _ => true
  | .str _ => true
  | .arr xs => wfList xs
  | .obj kvs => keysNodupB (kvs.map Prod.fst) && wfFields kvs

/-- Well-formedness, elementwise. -/
def wfList : List Json → Bool
  | [] => true
  | x :: xs => wfB x && wfList xs

/-- Well-formedness, fieldwise. -/
def wfFields : List (String × Json) → Bool
  | [] => true
  | (_, v) :: kvs => wfB v && wfFields kvs

end

mutual

/-- Fuel that recursive descent needs for one value. -/
def jsize : Json → Nat
  | .null => 1
  | .bool _ => 1
  | .int _ => 1
  | .str _ => 1
  | .arr xs => 1 + jsizeList xs
  | .obj kvs => 1 + jsizeFields kvs

/-- Fuel for the elements of an array. -/
def jsizeList : List Json → Nat
  | [] => 0
  | x :: xs => 1 + jsize x + jsizeList xs

/-- Fuel for the members of an object. -/
def jsizeFields : List (String × Json) → Nat
  | [] => 0
  | (_, v) :: kvs => 1 + jsize v + jsizeFields kvs

end

/-! ### The printer: `json.dump(value, f, indent=2)` -/

def dquote : Char := Char.ofNat 34

def bslash : Char := Char.ofNat 92

/-- A lowercase hex digit. -/
def hexDigitChar (d : Nat) : Char :=
  if d < 10 then Char.ofNat (48 + d) else Char.ofNat (87 + d)

/-- Four lowercase hex digits, most significant first. -/
def hex4 (n : Nat) : List Char :=
  [hexDigitChar (n / 4096 % 16), hexDigitChar (n / 256 % 16),
    hexDigitChar (n / 16 % 16), hexDigitChar (n % 16)]

/-- CPython's `py_encode_basestring_ascii` on one character: printable ASCII
other than the quote and backslash is copied; the two of those and the five
shortcut control characters are backslash escapes; everything else becomes
`\uXXXX`, non-BMP characters as a surrogate pair. -/
def escChar (c : Char) : List Char :=
  if c = dquote then [bslash, dquote]
  else if c = bslash then [bslash, bslash]
  else if c = Char.ofNat 8 then [bslash, 'b']
  else if c = Char.ofNat 12 then [bslash, 'f']
  else if c = '\n' then [bslash, 'n']
  else if c = '\r' then [bslash, 'r']
  else if c = '\t' then [bslash, 't']
  else if 32 ≤ c.toNat ∧ c.toNat ≤ 126 then [c]
  else if c.toNat < 65536 then bslash :: 'u' :: hex4 c.toNat
  else
    bslash :: 'u' :: hex4 (55296 + (c.toNat - 65536) / 1024) ++
      bslash :: 'u' :: hex4 (56320 + (c.toNat - 65536) % 1024)

/-- A JSON string literal for `s`. -/
def dumpStr (s : String) : List Char := dquote :: s.toList.flatMap escChar ++ [dquote]

/-- Decimal digits of `n`, most significant first, by fuelled division. -/
def natDigitsAux : Nat → Nat → List Char
  | 0, _ => []
  | fuel + 1, n => if n = 0 then [] else natDigitsAux fuel (n / 10) ++ [Char.ofNat (48 + n % 10)]

/-- Decimal text of a natural number. -/
def printNat (n : Nat) : List Char := if n = 0 then [Char.ofNat 48] else natDigitsAux n n

/-- Decimal text of an integer, as `int.__repr__` writes it. -/
def printInt (i : Int) : List Char :=
  if i < 0 then Char.ofNat 45 :: printNat (-i).toNat else printNat i.toNat

/-- The newline-plus-indentation separator of `indent=2` output. -/
def nlIndent (lvl : Nat) : List Char := '\n' :: List.replicate (2 * lvl) ' '

mutual

/-- `json.dump(..., indent=2)` at nesting level `lvl`. -/
def dumpVal (lvl : Nat) : Json → List Char
  | .int n => printInt n
  | .str s => dumpStr s
  | .null => "null".toList
  | .bool b => if b then "true".toList else "false".toList
  | .arr [] => ['[', ']']
  | .arr (x :: xs) =>
    '[' :: (nlIndent (lvl + 1) ++ dumpVal (lvl + 1) x ++ dumpItems (lvl + 1) xs ++
      nlIndent lvl ++ [']'])
  | .obj [] => [lbrace, rbrace]
  | .obj ((k, v) :: kvs) =>
    lbrace :: (nlIndent (lvl + 1) ++ dumpStr k ++ ':' :: ' ' :: dumpVal (lvl + 1) v ++
      dumpMembers (lvl + 1) kvs ++ nlIndent lvl ++ [rbrace])

/-- Each array item after the first, with its separator. -/
def dumpItems (lvl : Nat) : List Json → List Char
  | [] => []
  | y :: ys => ',' :: nlIndent lvl ++ dumpVal lvl y ++ dumpItems lvl ys

/-- Each object member after the first, with its separator. -/
def dumpMembers (lvl : Nat) : List (String × Json) → List Char
  | [] => []
  | (k, v) :: kvs =>
    ',' :: nlIndent lvl ++ dumpStr k ++ ':' :: ' ' :: dumpVal lvl v ++ dumpMembers lvl kvs

end

/-- The full document `json.dump(value, f, indent=2)` writes. -/
def dumps (v : Json) : String := String.mk (dumpVal 0 v)

/-! ### The parser: `json.loads` -/

/-- JSON inter-token whitespace. -/
def isJsonWs (c : Char) : Bool := c = ' ' || c = '\t' || c = '\n' || c = '\r'

/-- Skip inter-token whitespace. -/
def dropWs (s : List Char) : List Char := s.dropWhile isJsonWs

/-- The value of one hex digit. -/
def hexVal (c : Char) : Option Nat :=
  if '0' ≤ c ∧ c ≤ '9' then some (c.toNat - 48)
  else if 'a' ≤ c ∧ c ≤ 'f' then some (c.toNat - 87)
  else if 'A' ≤ c ∧ c ≤ 'F' then some (c.toNat - 55)
  else none

/-- The character a single-character escape stands for. -/
def simpleEscape (e : Char) : Option Char :=
  if e = dquote then some dquote
  else if e = bslash then some bslash
  else if e = '/' then some '/'
  else if e = 'b' then some (Char.ofNat 8)
  else if e = 'f' then some (Char.ofNat 12)
  else if e = 'n' then some '\n'
  else if e = 'r' then some '\r'
  else if e = 't' then some '\t'
  else none

/-- The scanner state inside a JSON string literal: ordinary characters, just
after a backslash, inside the four hex digits of a `\\uXXXX` unit (digits
still to read, and the value so far), or between/inside the two units of a
surrogate pair. -/
inductive PsbMode where
  | raw
  | esc
  | hex (acc : Nat) (k : Nat)
  | surA (hi : Nat)
  | surB (hi : Nat)
  | hexLo (hi : Nat) (acc : Nat) (k : Nat)

/-- `py_scanstring` after the opening quote, one character per step: raw
characters (strict mode refuses raw control characters), shortcut escapes,
`\\uXXXX` with surrogate pairs recombined.  Lone surrogate escapes are
rejected (a Lean `Char` cannot carry them). -/
def psbRun : PsbMode → List Char → Option (List Char × List Char)
  | _, [] => none
  | .raw, c :: rest =>
    if c = dquote then some ([], rest)
    else if c = bslash then psbRun .esc rest
    else if 32 ≤ c.toNat then (psbRun .raw rest).map (fun r => (c :: r.1, r.2))
    else none
  | .esc, e :: rest =>
    if e = 'u' then psbRun (.hex 0 4) rest
    else
      match simpleEscape e with
      | some c2 => (psbRun .raw rest).map (fun r => (c2 :: r.1, r.2))
      | none => none
  | .hex _ 0, _ => none
  | .hex acc (k + 1), h :: rest =>
    match hexVal h with
    | none => none
    | some d =>
      if k = 0 then
        if 55296 ≤ acc * 16 + d ∧ acc * 16 + d < 56320 then psbRun (.surA (acc * 16 + d)) rest
        else if 56320 ≤ acc * 16 + d ∧ acc * 16 + d < 57344 then none
        else (psbRun .raw rest).map (fun r => (Char.ofNat (acc * 16 + d) :: r.1, r.2))
      else psbRun (.hex (acc * 16 + d) k) rest
  | .surA hi, c :: rest => if c = bslash then psbRun (.surB hi) rest else none
  | .surB hi, c :: rest => if c = 'u' then psbRun (.hexLo hi 0 4) rest else none
  | .hexLo _ _ 0, _ => none
  | .hexLo hi acc (k + 1), h :: rest =>
    match hexVal h with
    | none => none
    | some d =>
      if k = 0 then
        if 56320 ≤ acc * 16 + d ∧ acc * 16 + d < 57344 then
          (psbRun .raw rest).map (fun r =>
            (Char.ofNat (65536 + (hi - 55296) * 1024 + (acc * 16 + d - 56320)) :: r.1, r.2))
        else none
      else psbRun (.hexLo hi (acc * 16 + d) k) rest

/-- The body of a string literal: characters until the closing quote, and the
input after that quote. -/
def parseStringBody (s : List Char) : Option (List Char × List Char) := psbRun .raw s

/-- The numeric value of a most-significant-first digit run. -/
def digitsVal (ds : List Char) : Nat := ds.foldl (fun a c => 10 * a + (c.toNat - 48)) 0

/-- A non-empty run of digits and its value. -/
def parseNatPart (s : List Char) : Option (Nat × List Char) :=
  if s.takeWhile isAsciiDigit = [] then none
  else some (digitsVal (s.takeWhile isAsciiDigit), s.dropWhile isAsciiDigit)

/-- Python dict insertion: a repeated key replaces the value in place, a new
key goes to the end. -/
def insertKV (acc : List (String × Json)) (k : String) (v : Json) : List (String × Json) :=
  match acc with
  | [] => [(k, v)]
  | (k2, v2) :: rest => if k2 = k then (k2, v) :: rest else (k2, v2) :: insertKV rest k v

/-- The dict `json.loads` builds from a member list, in insertion order. -/
def collapseKVs (l : List (String × Json)) : List (String × Json) :=
  l.foldl (fun acc kv => insertKV acc kv.1 kv.2) []

mutual

/-- One JSON value, after optional whitespace.  The fuel bounds recursion
depth and element count; `loads` passes the input length plus one, which any
parse consuming at least one character per step stays under. -/
def parseVal : Nat → List Char → Option (Json × List Char)
  | 0, _ => none
  | fuel + 1, s =>
    match dropWs s with
    | [] => none
    | c :: rest =>
      if c = 'n' then
        match rest with
        | 'u' :: 'l' :: 'l' :: r => some (.null, r)
        | _ => none
      else if c = 't' then
        match rest with
        | 'r' :: 'u' :: 'e' :: r => some (.bool true, r)
        | _ => none
      else if c = 'f' then
        match rest with
        | 'a' :: 'l' :: 's' :: 'e' :: r => some (.bool false, r)
        | _ => none
      else if c = dquote then
        (parseStringBody rest).map (fun r => (.str (String.mk r.1), r.2))
      else if c = Char.ofNat 45 then
        (parseNatPart rest).map (fun r => (.int (-(r.1 : Int)), r.2))
      else if isAsciiDigit c then
        (parseNatPart (c :: rest)).map (fun r => (.int (r.1 : Int), r.2))
      else if c = '[' then
        match dropWs rest with
        | c2 :: r2 =>
          if c2 = ']' then some (.arr [], r2)
          else
            (parseElems fuel rest).map (fun r => (.arr r.1, r.2))
        | [] => none
      else if c = lbrace then
        match dropWs rest with
        | c2 :: r2 =>
          if c2 = rbrace then some (.obj [], r2)
          else (parseMembers fuel rest).map (fun r => (.obj (collapseKVs r.1), r.2))
        | [] => none
      else none

/-- The elements of a non-empty array, up to and including `]`. -/
def parseElems : Nat → List Char → Option (List Json × List Char)
  | 0, _ => none
  | fuel + 1, s =>
    match parseVal fuel s with
    | none => none
    | some (v, r) =>
      match dropWs r with
      | c :: r2 =>
        if c = ',' then (parseElems fuel r2).map (fun t => (v :: t.1, t.2))
        else if c = ']' then some ([v], r2)
        else none
      | [] => none

/-- The members of a non-empty object, up to and including the closing
brace. -/
def parseMembers : Nat → List Char → Option (List (String × Json) × List Char)
  | 0, _ => none
  | fuel + 1, s =>
    match dropWs s with
    | c :: r =>
      if c = dquote then
        match parseStringBody r with
        | none => none
        | some (kcs, r2) =>
          match dropWs r2 with
          | c2 :: r3 =>
            if c2 = ':' then
              match parseVal fuel r3 with
              | none => none
              | some (v, r4) =>
                match dropWs r4 with
                | c3 :: r5 =>
                  if c3 = ',' then
                    (parseMembers fuel r5).map (fun t => ((String.mk kcs, v) :: t.1, t.2))
                  else if c3 = rbrace then some ([(String.mk kcs, v)], r5)
                  else none
                | [] => none
            else none
          | [] => none
      else none
    | [] => none

end

/-- `json.loads`: one value, surrounding whitespace allowed, nothing after. -/
def loads (s : String) : Option Json :=
  match parseVal (s.toList.length + 1) s.toList with
  | some (v, r) => if dropWs r = [] then some v else none
  | none => none

/-! ### The two file-backed stores -/

/-- What a read of one file can find. -/
inductive FileState where
  | absent
  | ioFail
  | content (s : String)

/-- The list store: one file per list name. -/
def Store := String → FileState

/-- `dict.get(key, default)` on a parsed object. -/
def jsonGet (kvs : List (String × Json)) (k : String) (dflt : Json) : Json :=
  match kvs.find? (fun kv => kv.1 == k) with
  | some kv => kv.2
  | none => dflt

/-- `save_list(name, contacts)` (lines 71-76): overwrite the list's file with
`json.dump({"contacts": contacts}, f, indent=2)`, whatever was there. -/
def save_list (name : String) (contacts : Json) (st : Store) : Store :=
  fun m => if m = name then .content (dumps (Json.obj [("contacts", contacts)])) else st m

/-- `load_list(name)` (lines 58-68): missing file, unreadable file and invalid
JSON give the empty list; a parsed object gives its `contacts` value
(defaulting to the empty list); a parsed non-object crashes on `data.get`
with `AttributeError`, which nothing catches. -/
def load_list (name : String) (st : Store) : Except PyErr Json :=
  match st name with
  | .absent => .ok (Json.arr [])
  | .ioFail => .ok (Json.arr [])
  | .content s =>
    match loads s with
    | none => .ok (Json.arr [])
    | some (.obj kvs) => .ok (jsonGet kvs "contacts" (Json.arr []))
    | some _ => .error .attributeError

/-- `save_contacts_cache(contacts)` (lines 42-45): overwrite the cache file. -/
def save_contacts_cache (contacts : Json) (_st : FileState) : FileState :=
  .content (dumps (Json.obj [("contacts", contacts)]))

/-- `load_cached_contacts()` (lines 30-39): `None` when the file is missing,
unreadable or invalid; the object's `contacts` value otherwise; `AttributeError`
on a parsed non-object. -/
def load_cached_contacts (st : FileState) : Except PyErr (Option Json) :=
  match st with
  | .absent => .ok none
  | .ioFail => .ok none
  | .content s =>
    match loads s with
    | none => .ok none
    | some (.obj kvs) => .ok (some (jsonGet kvs "contacts" (Json.arr [])))
    | some _ => .error .attributeError

end PartyPlanner

namespace PartyPlanner

/-! # Theorems

Sanity checks first: concrete evaluations of the embedding against the
behaviour of the Python source. -/

example : draft_message "Hey {name}!" ⟨"Bob Jones", none, "555"⟩ = .ok "Hey Bob!" := by decide

example : draft_message "Hi {first_name}, {phone}" ⟨"Ann Lee", some "Annie", "1"⟩ =
    .ok "Hi Annie, 1" := by decide

example : draft_message "x {foo}" ⟨"Bob", none, "5"⟩ = .error (.keyError "foo") := by decide

example : draft_message "\x7b\x7b" ⟨"Bob", none, "5"⟩ = .ok "\x7b" := by decide

example : draft_message "hi" ⟨" ", none, "5"⟩ = .error .indexError := by decide

example : draft_message "a {0}" ⟨"Bob", none, "5"⟩ = .error .indexError := by decide

example : draft_message "a \x7b" ⟨"Bob", none, "5"⟩ = .error .valueError := by decide

/-! ## The `str.format` scanner on decomposed templates -/

/-- Scanning one well-formed item consumes its text and emits its rendering. -/
theorem pyFormatAux_item (first phone : List Char) (i : TItem) (hi : itemOK i)
    (s : List Char) :
    pyFormatAux first phone .lit (itemText i ++ s) =
      (pyFormatAux first phone .lit s).map (fun t => renderItem first phone i ++ t) := by
  cases i with
  | lit c =>
    obtain ⟨h1, h2⟩ := hi
    simp [itemText, renderItem, pyFormatAux, h1, h2]
  | phName => rfl
  | phFirst => rfl
  | phPhone => rfl
  | escOpen => rfl
  | escClose => rfl

/-- Scanning a list of well-formed items consumes their text and emits their
renderings. -/
theorem pyFormatAux_items (first phone : List Char) :
    ∀ (items : List TItem), (∀ i ∈ items, itemOK i) → ∀ s : List Char,
      pyFormatAux first phone .lit (items.flatMap itemText ++ s) =
        (pyFormatAux first phone .lit s).map
          (fun t => items.flatMap (renderItem first phone) ++ t) := by
  intro items
  induction items with
  | nil =>
    intro _ s
    cases h : pyFormatAux first phone .lit s <;> simp [Except.map, h]
  | cons i is ih =>
    intro hok s
    have hi : itemOK i := hok i (by simp)
    have his : ∀ j ∈ is, itemOK j := fun j hj => hok j (by simp [hj])
    simp only [List.flatMap_cons, List.append_assoc]
    rw [pyFormatAux_item first phone i hi, ih his s]
    cases h : pyFormatAux first phone .lit s <;> simp [Except.map, h]

/-- Scanning a brace-free field name up to its closing brace resolves the
accumulated field through `fieldValue`. -/
theorem pyFormatAux_field (first phone : List Char) :
    ∀ k : List Char, (∀ c ∈ k, c ≠ lbrace ∧ c ≠ rbrace) → ∀ acc s : List Char,
      pyFormatAux first phone (.field acc) (k ++ rbrace :: s) =
        (fieldValue first phone (acc.reverse ++ k)).bind (fun v =>
          (pyFormatAux first phone .lit s).map (fun t => v ++ t)) := by
  intro k
  induction k with
  | nil => intro _ acc s; simp [pyFormatAux]
  | cons c k ih =>
    intro hk acc s
    obtain ⟨h1, h2⟩ := hk c (by simp)
    have hrest : ∀ d ∈ k, d ≠ lbrace ∧ d ≠ rbrace := fun d hd => hk d (by simp [hd])
    simp only [List.cons_append]
    rw [show pyFormatAux first phone (.field acc) (c :: (k ++ rbrace :: s)) =
        pyFormatAux first phone (.field (c :: acc)) (k ++ rbrace :: s) by
      simp [pyFormatAux, h1, h2]]
    rw [ih hrest (c :: acc) s]
    simp

/-- A template that reads as well-formed items followed by a replacement
field whose parse reaches the key lookup and whose key names none of the
three keywords (and is not a positional reference) makes `str.format` raise
`KeyError` on that key. -/
theorem pyFormat_keyError (first phone : List Char) (pre : List TItem)
    (k tail : List Char) (hpre : ∀ i ∈ pre, itemOK i)
    (hk : ∀ c ∈ k, c ≠ lbrace ∧ c ≠ rbrace)
    (hok : fieldParseOK false k = true)
    (hdig : ¬(fieldKey k).all isAsciiDigit = true)
    (h1 : fieldKey k ≠ "name".toList) (h2 : fieldKey k ≠ "first_name".toList)
    (h3 : fieldKey k ≠ "phone".toList) :
    pyFormatAux first phone .lit
        (pre.flatMap itemText ++ lbrace :: (k ++ rbrace :: tail)) =
      .error (.keyError (String.mk (fieldKey k))) := by
  rw [pyFormatAux_items first phone pre hpre]
  rw [show pyFormatAux first phone .lit (lbrace :: (k ++ rbrace :: tail)) =
      pyFormatAux first phone (.field []) (k ++ rbrace :: tail) by simp [pyFormatAux]]
  rw [pyFormatAux_field first phone k hk [] tail]
  have hnn : ¬(fieldKey k = "name".toList ∨ fieldKey k = "first_name".toList) := by
    intro h
    cases h with
    | inl h => exact h1 h
    | inr h => exact h2 h
  simp only [List.reverse_nil, List.nil_append, fieldValue]
  rw [if_pos hok, if_neg hnn, if_neg h3, if_neg hdig]
  rfl

/-! ## Claim C2: `draft_message` substitution -/

/-- C2 counterexample.  The claim quantifies over *every* template string and
asserts that `draft_message` returns the template with the three placeholders
substituted and all other characters unchanged.  For the template `"x
\x7bfoo\x7d"` and the contact `\x7bname: "Bob", phone: "5"\x7d` that reading
demands the unchanged text `"x \x7bfoo\x7d"` back; the code instead raises
`KeyError('foo')` from `str.format`. -/
theorem claimC2_counterexample :
    draft_message "x {foo}" ⟨"Bob", none, "5"⟩ = .error (.keyError "foo") ∧
      draft_message "x {foo}" ⟨"Bob", none, "5"⟩ ≠ .ok "x {foo}" := by
  constructor
  · decide
  · decide

/-- C2 (amended).  For every template that decomposes into ordinary
characters, doubled-brace escapes, and the placeholders `\x7bname\x7d`,
`\x7bfirst_name\x7d`, `\x7bphone\x7d`; and every contact whose name is
non-empty and — when the `first_name` field is absent or empty — has at least
one whitespace-separated token: `draft_message` returns the template with
every `\x7bname\x7d` and `\x7bfirst_name\x7d` replaced by the contact's
`first_name` when present and non-empty, otherwise by the first token of the
name; every `\x7bphone\x7d` replaced by the phone; doubled braces collapsed to
single ones; and every other character unchanged. -/
theorem claimC2_amended (items : List TItem) (c : Contact)
    (hitems : ∀ i ∈ items, itemOK i) (hname : c.name ≠ "")
    (hfirst : c.first_name = none ∨ c.first_name = some "" → pySplit c.name ≠ []) :
    draft_message (String.mk (items.flatMap itemText)) c =
      .ok (String.mk (items.flatMap (renderItem (specFirstName c).toList c.phone.toList))) := by
  have hfn : firstNameOf c = .ok (specFirstName c) := by
    unfold firstNameOf specFirstName splitIndexZero
    match h : c.first_name with
    | some f =>
      by_cases hf : f = ""
      · subst hf
        have hsp : pySplit c.name ≠ [] := hfirst (Or.inr h)
        match hsp2 : pySplit c.name with
        | [] => exact absurd hsp2 hsp
        | t :: ts => simp [hname, hsp2, List.headI]
      · simp [hname, hf]
    | none =>
      have hsp : pySplit c.name ≠ [] := hfirst (Or.inl h)
      match hsp2 : pySplit c.name with
      | [] => exact absurd hsp2 hsp
      | t :: ts => simp [hname, hsp2, List.headI]
  unfold draft_message
  rw [hfn]
  show pyFormat (String.mk (items.flatMap itemText)) (specFirstName c) c.phone = _
  unfold pyFormat
  rw [show (String.mk (items.flatMap itemText)).toList = items.flatMap itemText from rfl]
  have hit := pyFormatAux_items (specFirstName c).toList c.phone.toList items hitems []
  simp only [List.append_nil] at hit
  rw [hit]
  simp [pyFormatAux, Except.map]

/-- C2 amendment witness: a concrete good template and contact, with the
hypotheses checked and the theorem applied. -/
theorem claimC2_witness :
    (∀ i ∈ [TItem.lit 'H', .lit 'i', .lit ' ', .phName, .lit ' ', .phPhone], itemOK i) ∧
      ("Bob Jones" : String) ≠ "" ∧
      draft_message
          (String.mk (([TItem.lit 'H', .lit 'i', .lit ' ', .phName, .lit ' ',
            .phPhone]).flatMap itemText)) ⟨"Bob Jones", none, "555"⟩ =
        .ok (String.mk (([TItem.lit 'H', .lit 'i', .lit ' ', .phName, .lit ' ',
          .phPhone]).flatMap
            (renderItem (specFirstName ⟨"Bob Jones", none, "555"⟩).toList
              ("555" : String).toList))) :=
  ⟨by decide, by decide,
    claimC2_amended [TItem.lit 'H', .lit 'i', .lit ' ', .phName, .lit ' ', .phPhone]
      ⟨"Bob Jones", none, "555"⟩ (by decide) (by decide) (fun _ => by decide)⟩

/-! ## Claim C4: the interactive search filter -/

/-- C4 counterexample.  The claim exempts only the literal query words
`done`, `sync`, `list`, the empty string, and number/comma/space selections,
and asserts every other query displays exactly the case-insensitive substring
matches.  The entered query `DONE` is none of those five, and the contact
`Macdonell` matches it case-insensitively, so the claim demands a result list;
the code lowercases the input first, reads it as the `done` command, and ends
the search instead. -/
theorem claimC4_counterexample :
    searchStep [⟨"Macdonell", none, "1"⟩] "DONE" = .finish ∧
      nameMatches "DONE" ⟨"Macdonell", none, "1"⟩ = true ∧
      SearchAction.finish ≠ .results [⟨"Macdonell", none, "1"⟩] := by
  refine ⟨by decide, by decide, by decide⟩

/-- C4 (amended).  For every entered query whose stripped form is not — after
lowering — one of the command words `done`, `sync`, `list`, is not empty, and
is not a pure number/comma/space selection, the displayed matches are exactly
the contacts of the full list whose name contains the stripped query as a
case-insensitive substring, in the full list's relative order. -/
theorem claimC4_amended (all : List Contact) (raw : String)
    (h1 : pyLower (pyStrip raw) ≠ "done") (h2 : pyLower (pyStrip raw) ≠ "sync")
    (h3 : pyLower (pyStrip raw) ≠ "list") (h4 : pyStrip raw ≠ "")
    (h5 : isSelectionInput (pyStrip raw) = false) :
    searchStep all raw = .results (all.filter (nameMatches (pyStrip raw))) := by
  simp [searchStep, h1, h2, h3, h4, h5]

/-- C4 amendment witness: the query `Mac` on a two-contact list. -/
theorem claimC4_witness :
    pyLower (pyStrip " Mac ") ≠ "done" ∧
      searchStep [⟨"Macdonell", none, "1"⟩, ⟨"Bob Jones", none, "2"⟩] " Mac " =
        .results ([⟨"Macdonell", none, "1"⟩, ⟨"Bob Jones", none, "2"⟩].filter
          (nameMatches (pyStrip " Mac "))) :=
  ⟨by decide,
    claimC4_amended [⟨"Macdonell", none, "1"⟩, ⟨"Bob Jones", none, "2"⟩] " Mac "
      (by decide) (by decide) (by decide) (by decide) (by decide)⟩

/-! ## Claim C7: parsing the Contacts-app output -/

/-- Each line is read by the code exactly as the claim describes it. -/
theorem macLineContact_eq_spec (line : String) : macLineContact line = specMacLine line := by
  unfold macLineContact specMacLine
  by_cases hin : pyIn "|" line = true
  · match hp : line.splitOn "|" with
    | [] => simp [hin, hp]
    | [p] => simp [hin, hp]
    | p0 :: p1 :: ps =>
      simp only [hin, hp, if_true, List.headI, List.tail_cons, List.length_cons, true_and]
      have hlen : 2 ≤ ps.length + 1 + 1 := by omega
      rw [if_pos hlen]
      by_cases hname : pyStrip p0 = ""
      · simp [hname]
      · simp [hname]
  · simp [hin]

/-- C7 (confirmed).  The contacts built from the address-book script's output
are exactly one record per line of the stripped output that contains a `|` and
splits into at least two parts, with the name, first name and phone fields the
claim describes; lines without a `|` produce no record. -/
theorem claimC7_fetch_contacts :
    ∀ stdout : String,
      fetch_contacts_from_mac stdout =
        ((pyStrip stdout).splitOn "\n").filterMap specMacLine := by
  intro stdout
  unfold fetch_contacts_from_mac
  exact List.filterMap_congr (fun line _ => macLineContact_eq_spec line)

/-! ## Claim C9: the selected list never gains a duplicate phone -/

/-- The add loop only ever appends, so the prior selection stays a prefix. -/
theorem addContacts_extends : ∀ (l : List Contact) (sel : List Contact),
    sel <+: addContacts sel l := by
  intro l
  induction l with
  | nil => intro sel; exact List.prefix_refl sel
  | cons c cs ih =>
    intro sel
    unfold addContacts
    by_cases h : phoneAlready sel c = true
    · simp only [h, if_true]
      exact ih sel
    · simp only [eq_false_of_ne_true h, if_false]
      exact List.IsPrefix.trans (List.prefix_append sel [c]) (ih (sel ++ [c]))

/-- The add loop's guard keeps the selected phones pairwise distinct. -/
theorem addContacts_nodup : ∀ (l : List Contact) (sel : List Contact),
    (sel.map Contact.phone).Nodup → ((addContacts sel l).map Contact.phone).Nodup := by
  intro l
  induction l with
  | nil => intro sel h; exact h
  | cons c cs ih =>
    intro sel h
    unfold addContacts
    by_cases hg : phoneAlready sel c = true
    · simp only [hg, if_true]
      exact ih sel h
    · simp only [eq_false_of_ne_true hg, if_false]
      refine ih (sel ++ [c]) ?_
      have hnot : ∀ x ∈ sel, ¬x.phone = c.phone := by
        intro x hx heq
        apply hg
        simp only [phoneAlready, List.any_eq_true]
        exact ⟨x, hx, by simp [heq]⟩
      simp only [List.map_append, List.map_cons, List.map_nil]
      refine List.Nodup.append h (List.nodup_singleton _) ?_
      intro a ha hb
      simp only [List.mem_singleton] at hb
      subst hb
      obtain ⟨x, hx, hxa⟩ := List.mem_map.mp ha
      exact hnot x hx hxa

/-- Strong-induction workhorse for claim C9, on a bound for the input-stream
length. -/
theorem claimC9_aux :
    ∀ (n : Nat) (inputs : List String), inputs.length ≤ n →
      ∀ (fetches : List (List Contact)) (all sel : List Contact),
        sel <+: searchLoop fetches all sel inputs ∧
          ((sel.map Contact.phone).Nodup →
            ((searchLoop fetches all sel inputs).map Contact.phone).Nodup) := by
  intro n
  induction n with
  | zero =>
    intro inputs hlen fetches all sel
    have : inputs = [] := List.eq_nil_of_length_eq_zero (Nat.le_zero.mp hlen)
    subst this
    exact ⟨List.prefix_refl sel, fun h => h⟩
  | succ n ihn =>
    intro inputs hlen fetches all sel
    match inputs with
    | [] => exact ⟨List.prefix_refl sel, fun h => h⟩
    | raw :: rest =>
      have hrest : rest.length ≤ n := by
        simp only [List.length_cons] at hlen
        omega
      unfold searchLoop
      match searchStep all raw with
      | .finish => exact ⟨List.prefix_refl sel, fun h => h⟩
      | .doSync => exact ihn rest hrest fetches.tail fetches.headI sel
      | .showList => exact ihn rest hrest fetches all sel
      | .skip => exact ihn rest hrest fetches all sel
      | .selectHint => exact ihn rest hrest fetches all sel
      | .results found =>
        by_cases hemp : found.isEmpty = true
        · simp only [hemp, if_true]
          exact ihn rest hrest fetches all sel
        · simp only [eq_false_of_ne_true hemp, if_false]
          match rest, hrest with
          | [], _ => exact ⟨List.prefix_refl sel, fun h => h⟩
          | selRaw :: rest2, hrest =>
            have h2 : rest2.length ≤ n := by
              simp only [List.length_cons] at hrest
              omega
            by_cases hs0 : pyLower (pyStrip selRaw) = ""
            · simp only [hs0, if_true]
              exact ihn rest2 h2 fetches all sel
            · simp only [hs0, if_false]
              by_cases hsa : pyLower (pyStrip selRaw) = "a"
              · simp only [hsa, if_true, if_false]
                have hrec := ihn rest2 h2 fetches all (addContacts sel found)
                exact ⟨(addContacts_extends found sel).trans hrec.1,
                  fun h => hrec.2 (addContacts_nodup found sel h)⟩
              · simp only [hsa, if_false]
                match parseSelection (pyLower (pyStrip selRaw)) found with
                | none => exact ihn rest2 h2 fetches all sel
                | some toAdd =>
                  have hrec := ihn rest2 h2 fetches all (addContacts sel toAdd)
                  exact ⟨(addContacts_extends toAdd sel).trans hrec.1,
                    fun h => hrec.2 (addContacts_nodup toAdd sel h)⟩

/-- C9 (confirmed).  Through every sequence of search-loop interactions the
previously selected contacts are preserved in place (contacts are only
appended), and pairwise-distinct selected phones stay pairwise distinct,
because the add step refuses any contact whose phone is already selected. -/
theorem claimC9_search_keeps_phones_distinct
    (inputs : List String) (fetches : List (List Contact)) (all sel : List Contact) :
    sel <+: searchLoop fetches all sel inputs ∧
      ((sel.map Contact.phone).Nodup →
        ((searchLoop fetches all sel inputs).map Contact.phone).Nodup) :=
  claimC9_aux inputs.length inputs (Nat.le_refl _) fetches all sel

/-- C9 witness: a concrete interaction that searches twice and tries to add
the same contact both times; the duplicate is refused and the phones stay
distinct. -/
theorem claimC9_witness :
    ([⟨"Ann", none, "1"⟩].map Contact.phone).Nodup ∧
      (([⟨"Ann", none, "1"⟩] : List Contact) <+:
        searchLoop [] [⟨"Bob X", none, "2"⟩] [⟨"Ann", none, "1"⟩]
          ["Bob", "1", "Bob", "1,1", "done"]) ∧
      ((searchLoop [] [⟨"Bob X", none, "2"⟩] [⟨"Ann", none, "1"⟩]
          ["Bob", "1", "Bob", "1,1", "done"]).map Contact.phone).Nodup :=
  ⟨by decide,
    (claimC9_search_keeps_phones_distinct ["Bob", "1", "Bob", "1,1", "done"] []
      [⟨"Bob X", none, "2"⟩] [⟨"Ann", none, "1"⟩]).1,
    (claimC9_search_keeps_phones_distinct ["Bob", "1", "Bob", "1,1", "done"] []
      [⟨"Bob X", none, "2"⟩] [⟨"Ann", none, "1"⟩]).2 (by decide)⟩

end PartyPlanner

namespace PartyPlanner

/-! ## The per-contact confirm loop: block structure -/

/-- Unconditional unfolding of one confirm-loop step. -/
theorem promptLoop_cons (i : Nat) (c : Contact) (oracle : List Bool) (msg raw : String)
    (rest : List String) :
    promptLoop i c oracle msg (raw :: rest) =
      if pyLower (pyStrip raw) = "s" ∨ pyLower (pyStrip raw) = "" then
        ⟨[.prompted i c.name msg, .entered i msg raw, .called i c.phone msg oracle.headI],
          rest, oracle.tail, .proceeded⟩
      else if pyLower (pyStrip raw) = "e" then
        match rest with
        | [] => ⟨[.prompted i c.name msg, .entered i msg raw], [], oracle, .ranOut⟩
        | raw2 :: rest2 =>
          let r := promptLoop i c oracle (if pyStrip raw2 = "" then msg else pyStrip raw2) rest2
          ⟨.prompted i c.name msg :: .entered i msg raw :: .editInput i msg raw2 :: r.evs,
            r.rem, r.orc, r.res⟩
      else if pyLower (pyStrip raw) = "n" then
        ⟨[.prompted i c.name msg, .entered i msg raw], rest, oracle, .proceeded⟩
      else if pyLower (pyStrip raw) = "q" then
        ⟨[.prompted i c.name msg, .entered i msg raw], rest, oracle, .quitted⟩
      else
        let r := promptLoop i c oracle msg rest
        ⟨.prompted i c.name msg :: .entered i msg raw :: r.evs, r.rem, r.orc, r.res⟩ := by
  cases rest <;> rfl

/-- Every confirm-loop block opens with the prompt for its contact and its
current message. -/
theorem promptLoop_head (i : Nat) (c : Contact) (oracle : List Bool) (msg : String)
    (inputs : List String) :
    (promptLoop i c oracle msg inputs).evs.head? = some (.prompted i c.name msg) := by
  induction msg, inputs using promptLoop.induct i c oracle with
  | case1 msg => simp [promptLoop]
  | case2 msg raw rest h => rw [promptLoop_cons, if_pos h]; rfl
  | case3 msg raw h1 h2 => rw [promptLoop_cons, if_neg h1, if_pos h2]; rfl
  | case4 msg raw h1 h2 raw2 rest2 ih => rw [promptLoop_cons, if_neg h1, if_pos h2]; rfl
  | case5 msg raw rest h1 h2 h3 => rw [promptLoop_cons, if_neg h1, if_neg h2, if_pos h3]; rfl
  | case6 msg raw rest h1 h2 h3 h4 =>
    rw [promptLoop_cons, if_neg h1, if_neg h2, if_neg h3, if_pos h4]; rfl
  | case7 msg raw rest h1 h2 h3 h4 ih =>
    rw [promptLoop_cons, if_neg h1, if_neg h2, if_neg h3, if_neg h4]; rfl

/-- Every event of a confirm-loop block belongs to its contact position. -/
theorem promptLoop_idx (i : Nat) (c : Contact) (oracle : List Bool) (msg : String)
    (inputs : List String) :
    ∀ ev ∈ (promptLoop i c oracle msg inputs).evs, evIdx ev = i := by
  induction msg, inputs using promptLoop.induct i c oracle with
  | case1 msg => simp [promptLoop, evIdx]
  | case2 msg raw rest h =>
    rw [promptLoop_cons, if_pos h]
    simp [evIdx]
  | case3 msg raw h1 h2 =>
    rw [promptLoop_cons, if_neg h1, if_pos h2]
    simp [evIdx]
  | case4 msg raw h1 h2 raw2 rest2 ih =>
    rw [promptLoop_cons, if_neg h1, if_pos h2]
    intro ev hev
    simp only [List.mem_cons] at hev
    rcases hev with h | h | h | h
    · simp [h, evIdx]
    · simp [h, evIdx]
    · simp [h, evIdx]
    · exact ih ev h
  | case5 msg raw rest h1 h2 h3 =>
    rw [promptLoop_cons, if_neg h1, if_neg h2, if_pos h3]
    simp [evIdx]
  | case6 msg raw rest h1 h2 h3 h4 =>
    rw [promptLoop_cons, if_neg h1, if_neg h2, if_neg h3, if_pos h4]
    simp [evIdx]
  | case7 msg raw rest h1 h2 h3 h4 ih =>
    rw [promptLoop_cons, if_neg h1, if_neg h2, if_neg h3, if_neg h4]
    intro ev hev
    simp only [List.mem_cons] at hev
    rcases hev with h | h | h
    · simp [h, evIdx]
    · simp [h, evIdx]
    · exact ih ev h

/-- Every adapter call in a confirm-loop block goes to the block's contact and
is immediately preceded by the user's confirming line at the prompt showing
the very message that is sent. -/
theorem promptLoop_called (i : Nat) (c : Contact) (oracle : List Bool) (msg : String)
    (inputs : List String) :
    ∀ k i2 p m ok, (promptLoop i c oracle msg inputs).evs[k]? = some (.called i2 p m ok) →
      p = c.phone ∧ 1 ≤ k ∧ ∃ raw,
        (promptLoop i c oracle msg inputs).evs[k - 1]? = some (.entered i2 m raw) ∧
          confirms raw := by
  induction msg, inputs using promptLoop.induct i c oracle with
  | case1 msg =>
    intro k i2 p m ok hk
    simp only [promptLoop] at hk
    match k with
    | 0 => simp at hk
    | n + 1 => simp at hk
  | case2 msg raw rest h =>
    intro k i2 p m ok hk
    rw [promptLoop_cons, if_pos h] at hk ⊢
    match k with
    | 0 => simp at hk
    | 1 => simp at hk
    | 2 =>
      simp only [List.getElem?_cons_succ, List.getElem?_cons_zero, Option.some.injEq] at hk
      obtain ⟨h1, h2, h3, h4⟩ := FlowEv.called.inj hk
      exact ⟨h2.symm, by omega, raw, by simp [h1, h3], h⟩
    | n + 3 => simp at hk
  | case3 msg raw h1 h2 =>
    intro k i2 p m ok hk
    rw [promptLoop_cons, if_neg h1, if_pos h2] at hk
    match k with
    | 0 => simp at hk
    | 1 => simp at hk
    | n + 2 => simp at hk
  | case4 msg raw h1 h2 raw2 rest2 ih =>
    intro k i2 p m ok hk
    rw [promptLoop_cons, if_neg h1, if_pos h2] at hk ⊢
    match k with
    | 0 => simp at hk
    | 1 => simp at hk
    | 2 => simp at hk
    | n + 3 =>
      simp only [List.getElem?_cons_succ] at hk
      obtain ⟨hp, hn1, raw3, hrow, hc⟩ := ih n i2 p m ok hk
      refine ⟨hp, by omega, raw3, ?_, hc⟩
      rw [show n + 3 - 1 = (n - 1) + 3 from by omega]
      simp only [List.getElem?_cons_succ]
      exact hrow
  | case5 msg raw rest h1 h2 h3 =>
    intro k i2 p m ok hk
    rw [promptLoop_cons, if_neg h1, if_neg h2, if_pos h3] at hk
    match k with
    | 0 => simp at hk
    | 1 => simp at hk
    | n + 2 => simp at hk
  | case6 msg raw rest h1 h2 h3 h4 =>
    intro k i2 p m ok hk
    rw [promptLoop_cons, if_neg h1, if_neg h2, if_neg h3, if_pos h4] at hk
    match k with
    | 0 => simp at hk
    | 1 => simp at hk
    | n + 2 => simp at hk
  | case7 msg raw rest h1 h2 h3 h4 ih =>
    intro k i2 p m ok hk
    rw [promptLoop_cons, if_neg h1, if_neg h2, if_neg h3, if_neg h4] at hk ⊢
    match k with
    | 0 => simp at hk
    | 1 => simp at hk
    | n + 2 =>
      simp only [List.getElem?_cons_succ] at hk
      obtain ⟨hp, hn1, raw3, hrow, hc⟩ := ih n i2 p m ok hk
      refine ⟨hp, by omega, raw3, ?_, hc⟩
      rw [show n + 2 - 1 = (n - 1) + 2 from by omega]
      simp only [List.getElem?_cons_succ]
      exact hrow

/-- A confirm-loop block calls the adapter at most once, and only for the
block's contact: its recipients are `[]` or the contact's phone alone. -/
theorem promptLoop_recipients (i : Nat) (c : Contact) (oracle : List Bool) (msg : String)
    (inputs : List String) :
    (promptLoop i c oracle msg inputs).evs.filterMap callRecipient = [] ∨
      (promptLoop i c oracle msg inputs).evs.filterMap callRecipient = [c.phone] := by
  induction msg, inputs using promptLoop.induct i c oracle with
  | case1 msg => left; simp [promptLoop, callRecipient]
  | case2 msg raw rest h =>
    rw [promptLoop_cons, if_pos h]
    right
    simp [callRecipient]
  | case3 msg raw h1 h2 =>
    rw [promptLoop_cons, if_neg h1, if_pos h2]
    left
    simp [callRecipient]
  | case4 msg raw h1 h2 raw2 rest2 ih =>
    rw [promptLoop_cons, if_neg h1, if_pos h2]
    simpa [callRecipient] using ih
  | case5 msg raw rest h1 h2 h3 =>
    rw [promptLoop_cons, if_neg h1, if_neg h2, if_pos h3]
    left
    simp [callRecipient]
  | case6 msg raw rest h1 h2 h3 h4 =>
    rw [promptLoop_cons, if_neg h1, if_neg h2, if_neg h3, if_pos h4]
    left
    simp [callRecipient]
  | case7 msg raw rest h1 h2 h3 h4 ih =>
    rw [promptLoop_cons, if_neg h1, if_neg h2, if_neg h3, if_neg h4]
    simpa [callRecipient] using ih

/-- After the user answers `n` at a contact's prompt, the block contains no
adapter call at all: the `n` line ends the block, and a call would have ended
it first. -/
theorem promptLoop_skip (i : Nat) (c : Contact) (oracle : List Bool) (msg : String)
    (inputs : List String) :
    ∀ i2 m raw, FlowEv.entered i2 m raw ∈ (promptLoop i c oracle msg inputs).evs →
      pyLower (pyStrip raw) = "n" →
      ∀ j p m2 ok, FlowEv.called j p m2 ok ∉ (promptLoop i c oracle msg inputs).evs := by
  induction msg, inputs using promptLoop.induct i c oracle with
  | case1 msg =>
    intro i2 m raw hmem hn
    simp [promptLoop] at hmem
  | case2 msg raw rest h =>
    intro i2 m raw0 hmem hn
    rw [promptLoop_cons, if_pos h] at hmem
    simp only [List.mem_cons, List.not_mem_nil, or_false] at hmem
    rcases hmem with he | he | he
    · exact absurd he (by intro hx; cases hx)
    · obtain ⟨_, _, hr⟩ := FlowEv.entered.inj he
      subst hr
      rcases h with h | h
      · rw [hn] at h
        exact absurd h (by decide)
      · rw [hn] at h
        exact absurd h (by decide)
    · exact absurd he (by intro hx; cases hx)
  | case3 msg raw h1 h2 =>
    intro i2 m raw0 hmem hn j p m2 ok
    rw [promptLoop_cons, if_neg h1, if_pos h2]
    simp
  | case4 msg raw h1 h2 raw2 rest2 ih =>
    intro i2 m raw0 hmem hn j p m2 ok
    rw [promptLoop_cons, if_neg h1, if_pos h2] at hmem ⊢
    simp only [List.mem_cons] at hmem
    rcases hmem with he | he | he | he
    · exact absurd he (by intro hx; cases hx)
    · obtain ⟨_, _, hr⟩ := FlowEv.entered.inj he
      subst hr
      rw [hn] at h2
      exact absurd h2 (by decide)
    · exact absurd he (by intro hx; cases hx)
    · intro hc
      simp only [List.mem_cons] at hc
      rcases hc with hx | hx | hx | hx
      · cases hx
      · cases hx
      · cases hx
      · exact ih i2 m raw0 he hn j p m2 ok hx
  | case5 msg raw rest h1 h2 h3 =>
    intro i2 m raw0 hmem hn j p m2 ok
    rw [promptLoop_cons, if_neg h1, if_neg h2, if_pos h3]
    simp
  | case6 msg raw rest h1 h2 h3 h4 =>
    intro i2 m raw0 hmem hn j p m2 ok
    rw [promptLoop_cons, if_neg h1, if_neg h2, if_neg h3, if_pos h4]
    simp
  | case7 msg raw rest h1 h2 h3 h4 ih =>
    intro i2 m raw0 hmem hn j p m2 ok
    rw [promptLoop_cons, if_neg h1, if_neg h2, if_neg h3, if_neg h4] at hmem ⊢
    simp only [List.mem_cons] at hmem
    rcases hmem with he | he | he
    · exact absurd he (by intro hx; cases hx)
    · obtain ⟨_, _, hr⟩ := FlowEv.entered.inj he
      subst hr
      rw [hn] at h3
      exact absurd h3 (by simp)
    · intro hc
      simp only [List.mem_cons] at hc
      rcases hc with hx | hx | hx
      · cases hx
      · cases hx
      · exact ih i2 m raw0 he hn j p m2 ok hx

/-- After the user answers `e` at a contact's prompt, the next step is the
replacement-message line, and the step after that re-prompts the same contact
with the old message when the replacement strips to empty and with the
stripped replacement otherwise; when the block instead ends right at the `e`
line, the input stream ran out. -/
theorem promptLoop_estep (i : Nat) (c : Contact) (oracle : List Bool) (msg : String)
    (inputs : List String) :
    ∀ k i2 m raw, (promptLoop i c oracle msg inputs).evs[k]? = some (.entered i2 m raw) →
      pyLower (pyStrip raw) = "e" →
      ((promptLoop i c oracle msg inputs).evs[k + 1]? = none →
          (promptLoop i c oracle msg inputs).res = .ranOut) ∧
      (∀ ev, (promptLoop i c oracle msg inputs).evs[k + 1]? = some ev →
        ∃ raw2, ev = .editInput i2 m raw2 ∧
          (promptLoop i c oracle msg inputs).evs[k + 2]? =
            some (.prompted i2 c.name (if pyStrip raw2 = "" then m else pyStrip raw2))) := by
  induction msg, inputs using promptLoop.induct i c oracle with
  | case1 msg =>
    intro k i2 m raw hk he
    simp only [promptLoop] at hk
    match k with
    | 0 => simp at hk
    | n + 1 => simp at hk
  | case2 msg raw rest h =>
    intro k i2 m raw0 hk he
    rw [promptLoop_cons, if_pos h] at hk
    match k with
    | 0 => simp at hk
    | 1 =>
      simp only [List.getElem?_cons_succ, List.getElem?_cons_zero, Option.some.injEq] at hk
      obtain ⟨_, _, hr⟩ := FlowEv.entered.inj hk
      subst hr
      rcases h with h | h
      · rw [he] at h
        exact absurd h (by decide)
      · rw [he] at h
        exact absurd h (by decide)
    | 2 => simp at hk
    | n + 3 => simp at hk
  | case3 msg raw h1 h2 =>
    intro k i2 m raw0 hk he
    rw [promptLoop_cons, if_neg h1, if_pos h2] at hk ⊢
    match k with
    | 0 => simp at hk
    | 1 =>
      constructor
      · intro _
        rfl
      · intro ev hev
        simp at hev
    | n + 2 => simp at hk
  | case4 msg raw h1 h2 raw2 rest2 ih =>
    intro k i2 m raw0 hk he
    rw [promptLoop_cons, if_neg h1, if_pos h2] at hk ⊢
    match k with
    | 0 => simp at hk
    | 1 =>
      simp only [List.getElem?_cons_succ, List.getElem?_cons_zero, Option.some.injEq] at hk
      obtain ⟨hi2, hm, hr⟩ := FlowEv.entered.inj hk
      subst hi2
      subst hm
      subst hr
      constructor
      · intro hnone
        simp at hnone
      · intro ev hev
        simp only [List.getElem?_cons_succ, List.getElem?_cons_zero, Option.some.injEq] at hev
        refine ⟨raw2, hev.symm, ?_⟩
        simp only [List.getElem?_cons_succ]
        have hh := promptLoop_head i c oracle
          (if pyStrip raw2 = "" then msg else pyStrip raw2) rest2
        rwa [List.head?_eq_getElem?] at hh
    | 2 => simp at hk
    | n + 3 =>
      simp only [List.getElem?_cons_succ] at hk
      have hih := ih n i2 m raw0 hk he
      constructor
      · intro hnone
        simp only [List.getElem?_cons_succ] at hnone
        exact hih.1 hnone
      · intro ev hev
        simp only [List.getElem?_cons_succ] at hev
        obtain ⟨raw3, hev2, hprompt⟩ := hih.2 ev hev
        refine ⟨raw3, hev2, ?_⟩
        simp only [List.getElem?_cons_succ]
        exact hprompt
  | case5 msg raw rest h1 h2 h3 =>
    intro k i2 m raw0 hk he
    rw [promptLoop_cons, if_neg h1, if_neg h2, if_pos h3] at hk
    match k with
    | 0 => simp at hk
    | 1 =>
      simp only [List.getElem?_cons_succ, List.getElem?_cons_zero, Option.some.injEq] at hk
      obtain ⟨_, _, hr⟩ := FlowEv.entered.inj hk
      subst hr
      rw [he] at h3
      exact absurd h3 (by decide)
    | n + 2 => simp at hk
  | case6 msg raw rest h1 h2 h3 h4 =>
    intro k i2 m raw0 hk he
    rw [promptLoop_cons, if_neg h1, if_neg h2, if_neg h3, if_pos h4] at hk
    match k with
    | 0 => simp at hk
    | 1 =>
      simp only [List.getElem?_cons_succ, List.getElem?_cons_zero, Option.some.injEq] at hk
      obtain ⟨_, _, hr⟩ := FlowEv.entered.inj hk
      subst hr
      rw [he] at h4
      exact absurd h4 (by decide)
    | n + 2 => simp at hk
  | case7 msg raw rest h1 h2 h3 h4 ih =>
    intro k i2 m raw0 hk he
    rw [promptLoop_cons, if_neg h1, if_neg h2, if_neg h3, if_neg h4] at hk ⊢
    match k with
    | 0 => simp at hk
    | 1 =>
      simp only [List.getElem?_cons_succ, List.getElem?_cons_zero, Option.some.injEq] at hk
      obtain ⟨_, _, hr⟩ := FlowEv.entered.inj hk
      subst hr
      rw [he] at h2
      exact absurd h2 (by simp)
    | n + 2 =>
      simp only [List.getElem?_cons_succ] at hk
      have hih := ih n i2 m raw0 hk he
      constructor
      · intro hnone
        simp only [List.getElem?_cons_succ] at hnone
        exact hih.1 hnone
      · intro ev hev
        simp only [List.getElem?_cons_succ] at hev
        obtain ⟨raw3, hev2, hprompt⟩ := hih.2 ev hev
        refine ⟨raw3, hev2, ?_⟩
        simp only [List.getElem?_cons_succ]
        exact hprompt

/-- The call positions of a confirm-loop block: none, or the block's contact
once. -/
theorem promptLoop_callIdx (i : Nat) (c : Contact) (oracle : List Bool) (msg : String)
    (inputs : List String) :
    (promptLoop i c oracle msg inputs).evs.filterMap callIdx = [] ∨
      (promptLoop i c oracle msg inputs).evs.filterMap callIdx = [i] := by
  induction msg, inputs using promptLoop.induct i c oracle with
  | case1 msg => left; simp [promptLoop, callIdx]
  | case2 msg raw rest h =>
    rw [promptLoop_cons, if_pos h]
    right
    simp [callIdx]
  | case3 msg raw h1 h2 =>
    rw [promptLoop_cons, if_neg h1, if_pos h2]
    left
    simp [callIdx]
  | case4 msg raw h1 h2 raw2 rest2 ih =>
    rw [promptLoop_cons, if_neg h1, if_pos h2]
    simpa [callIdx] using ih
  | case5 msg raw rest h1 h2 h3 =>
    rw [promptLoop_cons, if_neg h1, if_neg h2, if_pos h3]
    left
    simp [callIdx]
  | case6 msg raw rest h1 h2 h3 h4 =>
    rw [promptLoop_cons, if_neg h1, if_neg h2, if_neg h3, if_pos h4]
    left
    simp [callIdx]
  | case7 msg raw rest h1 h2 h3 h4 ih =>
    rw [promptLoop_cons, if_neg h1, if_neg h2, if_neg h3, if_neg h4]
    simpa [callIdx] using ih

/-! ## The contact walk: composition across blocks -/

/-- Unconditional unfolding of the contact walk on a non-empty list. -/
theorem contactsLoop_cons (template : String) (i : Nat) (oracle : List Bool) (c : Contact)
    (cs : List Contact) (inputs : List String) :
    contactsLoop template i oracle (c :: cs) inputs =
      match draft_message template c with
      | .error (.keyError k) => ([], .invalidPlaceholder k)
      | .error e => ([], .crashed e)
      | .ok msg =>
        let r := promptLoop i c oracle msg inputs
        match r.res with
        | .proceeded =>
          let rest := contactsLoop template (i + 1) r.orc cs r.rem
          (r.evs ++ rest.1, rest.2)
        | .quitted => (r.evs, .quitEarly)
        | .ranOut => (r.evs, .outOfInput) := by
  rfl

/-- Every event of the walk starting at position `i` has position at least
`i`. -/
theorem contactsLoop_idx_ge (template : String) :
    ∀ (cs : List Contact) (i : Nat) (oracle : List Bool) (inputs : List String),
      ∀ ev ∈ (contactsLoop template i oracle cs inputs).1, i ≤ evIdx ev := by
  intro cs
  induction cs with
  | nil =>
    intro i oracle inputs ev hev
    simp [contactsLoop] at hev
  | cons c cs ih =>
    intro i oracle inputs ev hev
    have hidx := promptLoop_idx i c oracle
    cases hd : draft_message template c with
    | error e =>
      cases e <;> simp only [contactsLoop_cons, hd] at hev <;> simp at hev
    | ok msg =>
      rcases hpl : promptLoop i c oracle msg inputs with ⟨evs, rem, orc, res⟩
      have hidx2 := hidx msg inputs
      rw [hpl] at hidx2
      simp only [contactsLoop_cons, hd, hpl] at hev
      cases res with
      | proceeded =>
        simp only [List.mem_append] at hev
        rcases hev with hev | hev
        · exact Nat.le_of_eq (hidx2 ev hev).symm
        · have := ih (i + 1) orc rem ev hev
          omega
      | quitted => exact Nat.le_of_eq (hidx2 ev hev).symm
      | ranOut => exact Nat.le_of_eq (hidx2 ev hev).symm

/-- A list of equal numbers is weakly increasing. -/
theorem pairwise_le_of_const {l : List Nat} {i : Nat} (h : ∀ x ∈ l, x = i) :
    l.Pairwise (· ≤ ·) := by
  induction l with
  | nil => exact List.Pairwise.nil
  | cons a l ih =>
    refine List.Pairwise.cons ?_ (ih fun x hx => h x (by simp [hx]))
    intro b hb
    rw [h a (by simp), h b (by simp [hb])]

/-- An adapter-call event's position, read off `callIdx`. -/
theorem evIdx_of_callIdx {ev : FlowEv} {j : Nat} (h : callIdx ev = some j) : evIdx ev = j := by
  cases ev <;> simp_all [callIdx, evIdx]

/-- The adapter-call recipients of the walk are, in order, a sublist of the
walked contacts' phones. -/
theorem contactsLoop_recipients (template : String) :
    ∀ (cs : List Contact) (i : Nat) (oracle : List Bool) (inputs : List String),
      List.Sublist ((contactsLoop template i oracle cs inputs).1.filterMap callRecipient)
        (cs.map Contact.phone) := by
  intro cs
  induction cs with
  | nil =>
    intro i oracle inputs
    simp [contactsLoop]
  | cons c cs ih =>
    intro i oracle inputs
    cases hd : draft_message template c with
    | error e =>
      cases e <;> simp [contactsLoop_cons, hd]
    | ok msg =>
      rcases hpl : promptLoop i c oracle msg inputs with ⟨evs, rem, orc, res⟩
      have hrec := promptLoop_recipients i c oracle msg inputs
      rw [hpl] at hrec
      simp only [contactsLoop_cons, hd, hpl]
      cases res with
      | proceeded =>
        simp only [List.filterMap_append, List.map_cons]
        rcases hrec with hrec | hrec
        · rw [hrec]
          simp only [List.nil_append]
          exact (ih (i + 1) orc rem).cons c.phone
        · rw [hrec]
          simp only [List.singleton_append]
          exact (ih (i + 1) orc rem).cons₂ c.phone
      | quitted =>
        simp only [List.map_cons]
        rcases hrec with hrec | hrec
        · rw [hrec]; exact List.nil_sublist _
        · rw [hrec]; exact (List.nil_sublist _).cons₂ c.phone
      | ranOut =>
        simp only [List.map_cons]
        rcases hrec with hrec | hrec
        · rw [hrec]; exact List.nil_sublist _
        · rw [hrec]; exact (List.nil_sublist _).cons₂ c.phone

/-- The adapter-call positions of the walk are strictly increasing: each
contact position is called at most once, in list order. -/
theorem contactsLoop_callIdx_sorted (template : String) :
    ∀ (cs : List Contact) (i : Nat) (oracle : List Bool) (inputs : List String),
      ((contactsLoop template i oracle cs inputs).1.filterMap callIdx).Pairwise (· < ·) := by
  intro cs
  induction cs with
  | nil =>
    intro i oracle inputs
    simp [contactsLoop]
  | cons c cs ih =>
    intro i oracle inputs
    cases hd : draft_message template c with
    | error e =>
      cases e <;> simp [contactsLoop_cons, hd]
    | ok msg =>
      rcases hpl : promptLoop i c oracle msg inputs with ⟨evs, rem, orc, res⟩
      have hcix := promptLoop_callIdx i c oracle msg inputs
      rw [hpl] at hcix
      simp only [contactsLoop_cons, hd, hpl]
      cases res with
      | proceeded =>
        simp only [List.filterMap_append]
        rcases hcix with hcix | hcix
        · rw [hcix]
          simp only [List.nil_append]
          exact ih (i + 1) orc rem
        · rw [hcix]
          simp only [List.singleton_append]
          refine List.Pairwise.cons ?_ (ih (i + 1) orc rem)
          intro b hb
          obtain ⟨ev, hev, hcall⟩ := List.mem_filterMap.mp hb
          have h1 := contactsLoop_idx_ge template cs (i + 1) orc rem ev hev
          have h2 := evIdx_of_callIdx hcall
          omega
      | quitted =>
        rcases hcix with hcix | hcix <;> rw [hcix] <;> simp
      | ranOut =>
        rcases hcix with hcix | hcix <;> rw [hcix] <;> simp

/-- The walk's event positions are weakly increasing: contacts are processed
one at a time, in list order, never returning to an earlier contact. -/
theorem contactsLoop_idx_sorted (template : String) :
    ∀ (cs : List Contact) (i : Nat) (oracle : List Bool) (inputs : List String),
      ((contactsLoop template i oracle cs inputs).1.map evIdx).Pairwise (· ≤ ·) := by
  intro cs
  induction cs with
  | nil =>
    intro i oracle inputs
    simp [contactsLoop]
  | cons c cs ih =>
    intro i oracle inputs
    cases hd : draft_message template c with
    | error e =>
      cases e <;> simp [contactsLoop_cons, hd]
    | ok msg =>
      rcases hpl : promptLoop i c oracle msg inputs with ⟨evs, rem, orc, res⟩
      have hidx := promptLoop_idx i c oracle msg inputs
      rw [hpl] at hidx
      simp only [contactsLoop_cons, hd, hpl]
      have hconst : (evs.map evIdx).Pairwise (· ≤ ·) :=
        pairwise_le_of_const (fun x hx => by
          obtain ⟨ev, hev, hx2⟩ := List.mem_map.mp hx
          rw [← hx2]
          exact hidx ev hev)
      cases res with
      | proceeded =>
        simp only [List.map_append]
        rw [List.pairwise_append]
        refine ⟨hconst, ih (i + 1) orc rem, ?_⟩
        intro a ha b hb
        obtain ⟨ev, hev, ha2⟩ := List.mem_map.mp ha
        obtain ⟨ev2, hev2, hb2⟩ := List.mem_map.mp hb
        have h1 := hidx ev hev
        have h2 := contactsLoop_idx_ge template cs (i + 1) orc rem ev2 hev2
        omega
      | quitted => exact hconst
      | ranOut => exact hconst

/-- Every adapter call of the walk is immediately preceded by the confirming
line entered at that contact's prompt, showing the message that is sent. -/
theorem contactsLoop_called (template : String) :
    ∀ (cs : List Contact) (i : Nat) (oracle : List Bool) (inputs : List String),
      ∀ k i2 p m ok,
        (contactsLoop template i oracle cs inputs).1[k]? = some (.called i2 p m ok) →
          1 ≤ k ∧ ∃ raw,
            (contactsLoop template i oracle cs inputs).1[k - 1]? =
              some (.entered i2 m raw) ∧ confirms raw := by
  intro cs
  induction cs with
  | nil =>
    intro i oracle inputs k i2 p m ok hk
    simp [contactsLoop] at hk
  | cons c cs ih =>
    intro i oracle inputs k i2 p m ok hk
    cases hd : draft_message template c with
    | error e =>
      cases e <;> simp only [contactsLoop_cons, hd] at hk ⊢ <;> simp at hk
    | ok msg =>
      rcases hpl : promptLoop i c oracle msg inputs with ⟨evs, rem, orc, res⟩
      have hblock := promptLoop_called i c oracle msg inputs
      rw [hpl] at hblock
      simp only [contactsLoop_cons, hd, hpl] at hk ⊢
      cases res with
      | proceeded =>
        by_cases hlt : k < evs.length
        · rw [List.getElem?_append_left hlt] at hk
          obtain ⟨hp, hk1, raw, hrow, hc⟩ := hblock k i2 p m ok hk
          refine ⟨hk1, raw, ?_, hc⟩
          rw [List.getElem?_append_left (by omega)]
          exact hrow
        · rw [List.getElem?_append_right (by omega)] at hk
          obtain ⟨hk1, raw, hrow, hc⟩ := ih (i + 1) orc rem (k - evs.length) i2 p m ok hk
          have hlen1 : evs.length + 1 ≤ k := by omega
          refine ⟨by omega, raw, ?_, hc⟩
          rw [List.getElem?_append_right (by omega),
            show k - 1 - evs.length = k - evs.length - 1 from by omega]
          exact hrow
      | quitted =>
        obtain ⟨hp, hk1, raw, hrow, hc⟩ := hblock k i2 p m ok hk
        exact ⟨hk1, raw, hrow, hc⟩
      | ranOut =>
        obtain ⟨hp, hk1, raw, hrow, hc⟩ := hblock k i2 p m ok hk
        exact ⟨hk1, raw, hrow, hc⟩

/-- After the user enters `n` at a contact's prompt, the adapter is never
invoked for that contact anywhere in the walk. -/
theorem contactsLoop_skip (template : String) :
    ∀ (cs : List Contact) (i : Nat) (oracle : List Bool) (inputs : List String),
      ∀ i2 m raw, FlowEv.entered i2 m raw ∈ (contactsLoop template i oracle cs inputs).1 →
        pyLower (pyStrip raw) = "n" →
        ∀ p m2 ok, FlowEv.called i2 p m2 ok ∉ (contactsLoop template i oracle cs inputs).1 := by
  intro cs
  induction cs with
  | nil =>
    intro i oracle inputs i2 m raw hmem
    simp [contactsLoop] at hmem
  | cons c cs ih =>
    intro i oracle inputs i2 m raw hmem hn p m2 ok
    cases hd : draft_message template c with
    | error e =>
      cases e <;> simp only [contactsLoop_cons, hd] at hmem ⊢ <;> simp at hmem
    | ok msg =>
      rcases hpl : promptLoop i c oracle msg inputs with ⟨evs, rem, orc, res⟩
      have hblock := promptLoop_skip i c oracle msg inputs
      have hidx := promptLoop_idx i c oracle msg inputs
      rw [hpl] at hblock hidx
      simp only [contactsLoop_cons, hd, hpl] at hmem ⊢
      cases res with
      | proceeded =>
        simp only [List.mem_append] at hmem ⊢
        rcases hmem with hmem | hmem
        · have hi2 : i2 = i := hidx _ hmem
          intro hc
          rcases hc with hc | hc
          · exact hblock i2 m raw hmem hn i2 p m2 ok hc
          · have := contactsLoop_idx_ge template cs (i + 1) orc rem _ hc
            simp [evIdx] at this
            omega
        · have hi2 : i + 1 ≤ i2 := by
            have := contactsLoop_idx_ge template cs (i + 1) orc rem _ hmem
            simpa [evIdx] using this
          intro hc
          rcases hc with hc | hc
          · have := hidx _ hc
            simp [evIdx] at this
            omega
          · exact ih (i + 1) orc rem i2 m raw hmem hn p m2 ok hc
      | quitted => exact hblock i2 m raw hmem hn i2 p m2 ok
      | ranOut => exact hblock i2 m raw hmem hn i2 p m2 ok

/-- After the user enters `e` at a contact's prompt, the next step of the walk
is the replacement-message line, and the step after that re-prompts the same
contact, with the old message when the replacement strips to empty and with
the stripped replacement otherwise; no adapter call happens in between. -/
theorem contactsLoop_estep (template : String) :
    ∀ (cs : List Contact) (i : Nat) (oracle : List Bool) (inputs : List String),
      ∀ k i2 m raw,
        (contactsLoop template i oracle cs inputs).1[k]? = some (.entered i2 m raw) →
          pyLower (pyStrip raw) = "e" →
          ∀ ev, (contactsLoop template i oracle cs inputs).1[k + 1]? = some ev →
            ∃ raw2, ev = .editInput i2 m raw2 ∧
              ∃ nm, (contactsLoop template i oracle cs inputs).1[k + 2]? =
                some (.prompted i2 nm (if pyStrip raw2 = "" then m else pyStrip raw2)) := by
  intro cs
  induction cs with
  | nil =>
    intro i oracle inputs k i2 m raw hk
    simp [contactsLoop] at hk
  | cons c cs ih =>
    intro i oracle inputs k i2 m raw hk he ev hev
    cases hd : draft_message template c with
    | error e =>
      cases e <;> simp only [contactsLoop_cons, hd] at hk ⊢ <;> simp at hk
    | ok msg =>
      rcases hpl : promptLoop i c oracle msg inputs with ⟨evs, rem, orc, res⟩
      have hblock := promptLoop_estep i c oracle msg inputs
      rw [hpl] at hblock
      dsimp only at hblock
      simp only [contactsLoop_cons, hd, hpl] at hk hev ⊢
      cases res with
      | proceeded =>
        by_cases hlt : k + 1 < evs.length
        · rw [List.getElem?_append_left (by omega)] at hk
          rw [List.getElem?_append_left hlt] at hev
          obtain ⟨raw2, hev2, hprompt⟩ := (hblock k i2 m raw hk he).2 ev hev
          have hk2 : k + 2 < evs.length := by
            by_contra hcon
            rw [List.getElem?_eq_none (by omega)] at hprompt
            exact absurd hprompt (by simp)
          refine ⟨raw2, hev2, c.name, ?_⟩
          rw [List.getElem?_append_left hk2]
          exact hprompt
        · by_cases hlt2 : k < evs.length
          · have hnone : evs[k + 1]? = none := List.getElem?_eq_none (by omega)
            rw [List.getElem?_append_left hlt2] at hk
            have := (hblock k i2 m raw hk he).1 hnone
            exact absurd this (by simp)
          · rw [List.getElem?_append_right (by omega),
              show k - evs.length = k - evs.length from rfl] at hk
            rw [List.getElem?_append_right (by omega),
              show k + 1 - evs.length = k - evs.length + 1 from by omega] at hev
            obtain ⟨raw2, hev2, nm, hprompt⟩ :=
              ih (i + 1) orc rem (k - evs.length) i2 m raw hk he ev hev
            refine ⟨raw2, hev2, nm, ?_⟩
            rw [List.getElem?_append_right (by omega),
              show k + 2 - evs.length = k - evs.length + 2 from by omega]
            exact hprompt
      | quitted =>
        obtain ⟨raw2, hev2, hprompt⟩ := (hblock k i2 m raw hk he).2 ev hev
        exact ⟨raw2, hev2, c.name, hprompt⟩
      | ranOut =>
        obtain ⟨raw2, hev2, hprompt⟩ := (hblock k i2 m raw hk he).2 ev hev
        exact ⟨raw2, hev2, c.name, hprompt⟩

/-! ## Claim C1: sends happen only after a confirming input -/

/-- C1 (confirmed).  In the send-texts flow, for every contact list, input
sequence and send-result sequence: (a) every `send_imessage` invocation is
immediately preceded by the user entering a confirming line — `s` or empty —
at that contact's prompt, and the message sent is the one prompted; (b) after
entering `n` at a contact's prompt the adapter is never invoked for that
contact; (c) entering `e` only reads a replacement message and re-prompts the
same contact — with the old text when the replacement strips to empty,
otherwise with the stripped replacement — and sends nothing in between. -/
theorem claimC1_send_needs_confirmation (contacts : List Contact) (inputs : List String)
    (oracle : List Bool) :
    (∀ k i p m ok,
        (sendTextsFlow contacts inputs oracle).1[k]? = some (.called i p m ok) →
          1 ≤ k ∧ ∃ raw,
            (sendTextsFlow contacts inputs oracle).1[k - 1]? = some (.entered i m raw) ∧
              confirms raw) ∧
    (∀ i m raw, FlowEv.entered i m raw ∈ (sendTextsFlow contacts inputs oracle).1 →
        pyLower (pyStrip raw) = "n" →
        ∀ p m2 ok, FlowEv.called i p m2 ok ∉ (sendTextsFlow contacts inputs oracle).1) ∧
    (∀ k i m raw,
        (sendTextsFlow contacts inputs oracle).1[k]? = some (.entered i m raw) →
          pyLower (pyStrip raw) = "e" →
          ∀ ev, (sendTextsFlow contacts inputs oracle).1[k + 1]? = some ev →
            ∃ raw2, ev = .editInput i m raw2 ∧
              ∃ nm, (sendTextsFlow contacts inputs oracle).1[k + 2]? =
                some (.prompted i nm (if pyStrip raw2 = "" then m else pyStrip raw2))) := by
  by_cases hc : contacts.isEmpty
  · simp [sendTextsFlow, hc]
  · cases inputs with
    | nil => simp [sendTextsFlow, hc]
    | cons t0 rest =>
      by_cases ht : (if pyStrip t0 = "1" then defaultTemplate else pyStrip t0) = ""
      · simp [sendTextsFlow, hc, ht]
      · have hflow : sendTextsFlow contacts (t0 :: rest) oracle =
            contactsLoop (if pyStrip t0 = "1" then defaultTemplate else pyStrip t0)
              1 oracle contacts rest := by
          simp [sendTextsFlow, hc, ht]
        rw [hflow]
        refine ⟨?_, ?_, ?_⟩
        · intro k i p m ok hk
          exact contactsLoop_called _ contacts 1 oracle rest k i p m ok hk
        · intro i m raw hmem hn p m2 ok
          exact contactsLoop_skip _ contacts 1 oracle rest i m raw hmem hn p m2 ok
        · intro k i m raw hk he ev hev
          exact contactsLoop_estep _ contacts 1 oracle rest k i m raw hk he ev hev

/-- C1 witness: one contact, template `hi`, confirm by pressing Enter; the
adapter call sits at position 2 of the trace, right after the confirming
line. -/
theorem claimC1_witness :
    (sendTextsFlow [⟨"Bob", none, "555"⟩] ["hi", ""] [true]).1[2]? =
        some (.called 1 "555" "hi" true) ∧
      (1 ≤ 2 ∧ ∃ raw,
        (sendTextsFlow [⟨"Bob", none, "555"⟩] ["hi", ""] [true]).1[2 - 1]? =
          some (.entered 1 "hi" raw) ∧ confirms raw) :=
  ⟨by decide,
    (claimC1_send_needs_confirmation [⟨"Bob", none, "555"⟩] ["hi", ""] [true]).1
      2 1 "555" "hi" true (by decide)⟩

/-! ## Claim C5: one contact at a time, in order, at most one call each -/

/-- C5 (confirmed).  For every contact list, input sequence and send-result
sequence: the recipients of the adapter calls form, in order, a sublist of the
contact list's phones; the call positions are strictly increasing — so each
contact gets at most one call, in list order; and the trace's contact
positions are weakly increasing — the flow finishes one contact (send, skip,
single failed attempt, or quit) before touching the next. -/
theorem claimC5_contacts_in_order (contacts : List Contact) (inputs : List String)
    (oracle : List Bool) :
    List.Sublist ((sendTextsFlow contacts inputs oracle).1.filterMap callRecipient)
        (contacts.map Contact.phone) ∧
      ((sendTextsFlow contacts inputs oracle).1.filterMap callIdx).Pairwise (· < ·) ∧
      ((sendTextsFlow contacts inputs oracle).1.map evIdx).Pairwise (· ≤ ·) := by
  by_cases hc : contacts.isEmpty
  · simp [sendTextsFlow, hc]
  · cases inputs with
    | nil => simp [sendTextsFlow, hc]
    | cons t0 rest =>
      by_cases ht : (if pyStrip t0 = "1" then defaultTemplate else pyStrip t0) = ""
      · simp [sendTextsFlow, hc, ht]
      · have hflow : sendTextsFlow contacts (t0 :: rest) oracle =
            contactsLoop (if pyStrip t0 = "1" then defaultTemplate else pyStrip t0)
              1 oracle contacts rest := by
          simp [sendTextsFlow, hc, ht]
        rw [hflow]
        exact ⟨contactsLoop_recipients _ contacts 1 oracle rest,
          contactsLoop_callIdx_sorted _ contacts 1 oracle rest,
          contactsLoop_idx_sorted _ contacts 1 oracle rest⟩

/-! ## Claim C10: a bad placeholder stops the flow before any send -/

/-- C10 counterexample.  The claim covers every placeholder other than the
three known ones and asserts the flow "reports an invalid placeholder and
returns".  The template `"{}"` contains such a placeholder (an empty,
auto-numbered field), yet the flow does not report-and-return: `str.format`
raises `IndexError`, which the `except KeyError` clause does not catch, and
the flow dies with a traceback.  (No message is sent either way: the trace is
empty.) -/
theorem claimC10_counterexample :
    sendTextsFlow [⟨"Bob", none, "5"⟩] ["{}"] [] = ([], .crashed .indexError) ∧
      ∀ k, FlowOutcome.crashed .indexError ≠ .invalidPlaceholder k :=
  ⟨by decide, fun _ h => FlowOutcome.noConfusion h⟩

/-- C10 (amended).  If the effective template reads as well-formed items
followed by a replacement field whose parse reaches the key lookup (closed
index brackets, well-formed conversion marker) and whose *key* — the field
name before any `!`, `:`, `.` or `[` — is none of `name`, `first_name`,
`phone` and not a positional reference (not all digits), and the first
contact's name lets drafting reach `str.format` (its `first_name` is usable
or its name has a first token), then the flow reports that key as the invalid
placeholder and returns before invoking the messaging adapter for any
contact: the trace is empty.  In particular `{foo:bar}` reports `foo`, while a
field keyed by a known name, such as `{name!r}`, is outside the hypotheses:
its lookup succeeds and no `KeyError` is raised. -/
theorem claimC10_amended (c0 : Contact) (cs : List Contact) (t0 : String)
    (rest : List String) (oracle : List Bool) (pre : List TItem) (k tail : List Char)
    (f : String)
    (htpl : (if pyStrip t0 = "1" then defaultTemplate else pyStrip t0).toList =
      pre.flatMap itemText ++ lbrace :: (k ++ rbrace :: tail))
    (hpre : ∀ i ∈ pre, itemOK i)
    (hk : ∀ ch ∈ k, ch ≠ lbrace ∧ ch ≠ rbrace)
    (hok : fieldParseOK false k = true)
    (hdig : ¬(fieldKey k).all isAsciiDigit = true)
    (h1 : fieldKey k ≠ "name".toList) (h2 : fieldKey k ≠ "first_name".toList)
    (h3 : fieldKey k ≠ "phone".toList)
    (hf : firstNameOf c0 = .ok f) :
    sendTextsFlow (c0 :: cs) (t0 :: rest) oracle =
      ([], .invalidPlaceholder (String.mk (fieldKey k))) := by
  have hne : (if pyStrip t0 = "1" then defaultTemplate else pyStrip t0) ≠ "" := by
    intro h0
    rw [h0] at htpl
    simp at htpl
  have hdraft : draft_message (if pyStrip t0 = "1" then defaultTemplate else pyStrip t0) c0 =
      .error (.keyError (String.mk (fieldKey k))) := by
    unfold draft_message
    rw [hf]
    show pyFormat (if pyStrip t0 = "1" then defaultTemplate else pyStrip t0) f c0.phone = _
    unfold pyFormat
    rw [htpl,
      pyFormat_keyError f.toList c0.phone.toList pre k tail hpre hk hok hdig h1 h2 h3]
    rfl
  have hflow : sendTextsFlow (c0 :: cs) (t0 :: rest) oracle =
      contactsLoop (if pyStrip t0 = "1" then defaultTemplate else pyStrip t0)
        1 oracle (c0 :: cs) rest := by
    simp [sendTextsFlow, hne]
  rw [hflow, contactsLoop_cons, hdraft]

/-- C10 amendment witness: the template `x {foo:bar}` on a one-contact list
makes the flow report the key `foo` — not `foo:bar` — and send nothing. -/
theorem claimC10_witness :
    fieldParseOK false "foo:bar".toList = true ∧
      fieldKey "foo:bar".toList = "foo".toList ∧
      firstNameOf ⟨"Bob", none, "5"⟩ = .ok "Bob" ∧
      sendTextsFlow [⟨"Bob", none, "5"⟩] ["x {foo:bar}"] [] =
        ([], .invalidPlaceholder (String.mk (fieldKey "foo:bar".toList))) :=
  ⟨by decide, by decide, by decide,
    claimC10_amended ⟨"Bob", none, "5"⟩ [] "x {foo:bar}" [] [] [.lit 'x', .lit ' ']
      "foo:bar".toList [] "Bob" (by decide) (by decide) (by decide) (by decide)
      (by decide) (by decide) (by decide) (by decide) (by decide)⟩

/-! ## JSON: structural equality decides equality -/

mutual

/-- Structural comparison decides equality of JSON values. -/
theorem Json.beq_iff_eq : ∀ a b : Json, Json.beq a b = true ↔ a = b
  | .null, .null => by simp [Json.beq]
  | .bool _, .bool _ => by simp [Json.beq]
  | .int _, .int _ => by simp [Json.beq]
  | .str _, .str _ => by simp [Json.beq]
  | .arr x, .arr y => by simp [Json.beq, Json.beqList_iff_eq x y]
  | .obj x, .obj y => by simp [Json.beq, Json.beqFields_iff_eq x y]
  | .null, .bool _ | .null, .int _ | .null, .str _ | .null, .arr _ | .null, .obj _
  | .bool _, .null | .bool _, .int _ | .bool _, .str _ | .bool _, .arr _ | .bool _, .obj _
  | .int _, .null | .int _, .bool _ | .int _, .str _ | .int _, .arr _ | .int _, .obj _
  | .str _, .null | .str _, .bool _ | .str _, .int _ | .str _, .arr _ | .str _, .obj _
  | .arr _, .null | .arr _, .bool _ | .arr _, .int _ | .arr _, .str _ | .arr _, .obj _
  | .obj _, .null | .obj _, .bool _ | .obj _, .int _ | .obj _, .str _ | .obj _, .arr _ => by
    simp [Json.beq]

/-- Elementwise comparison decides equality of value lists. -/
theorem Json.beqList_iff_eq : ∀ xs ys : List Json, Json.beqList xs ys = true ↔ xs = ys
  | [], [] => by simp [Json.beqList]
  | x :: xs, y :: ys => by simp [Json.beqList, Json.beq_iff_eq x y, Json.beqList_iff_eq xs ys]
  | [], _ :: _ => by simp [Json.beqList]
  | _ :: _, [] => by simp [Json.beqList]

/-- Fieldwise comparison decides equality of member lists. -/
theorem Json.beqFields_iff_eq :
    ∀ xs ys : List (String × Json), Json.beqFields xs ys = true ↔ xs = ys
  | [], [] => by simp [Json.beqFields]
  | (k₁, v₁) :: xs, (k₂, v₂) :: ys => by
    simp [Json.beqFields, Json.beq_iff_eq v₁ v₂, Json.beqFields_iff_eq xs ys, and_assoc]
  | [], _ :: _ => by simp [Json.beqFields]
  | _ :: _, [] => by simp [Json.beqFields]

end

instance : DecidableEq Json := fun a b => decidable_of_iff _ (Json.beq_iff_eq a b)

/-! ## JSON: whitespace, digits and hex -/

/-- A Lean `Char` is a unicode scalar value: never a UTF-16 surrogate. -/
theorem char_toNat_valid (c : Char) :
    c.toNat < 55296 ∨ (57343 < c.toNat ∧ c.toNat < 1114112) := by
  rcases c.valid with h | ⟨h1, h2⟩
  · left; exact h
  · right; exact ⟨h1, h2⟩

/-- Reading back a valid code point gives the same number. -/
theorem toNat_char_ofNat {n : Nat} (h : n.isValidChar) : (Char.ofNat n).toNat = n := by
  simp [Char.ofNat, h, Char.ofNatAux, Char.toNat, UInt32.toNat]

/-- Skipping whitespace passes over an all-whitespace prefix. -/
theorem dropWs_append {l : List Char} (s : List Char) (h : ∀ c ∈ l, isJsonWs c = true) :
    dropWs (l ++ s) = dropWs s := by
  induction l with
  | nil => rfl
  | cons c l ih =>
    have hc : isJsonWs c = true := h c (by simp)
    simp only [List.cons_append, dropWs, List.dropWhile_cons, hc, if_true]
    exact ih (fun d hd => h d (by simp [hd]))

/-- Skipping whitespace stops at a non-whitespace head. -/
theorem dropWs_cons {c : Char} (s : List Char) (h : isJsonWs c = false) :
    dropWs (c :: s) = c :: s := by
  simp [dropWs, List.dropWhile_cons, h]

/-- The indentation separator is all whitespace. -/
theorem nlIndent_ws (lvl : Nat) : ∀ c ∈ nlIndent lvl, isJsonWs c = true := by
  intro c hc
  simp only [nlIndent, List.mem_cons, List.mem_replicate] at hc
  rcases hc with h | ⟨_, h⟩ <;> subst h <;> rfl

/-- Hex digits print and read back. -/
theorem hexVal_hexDigitChar {d : Nat} (h : d < 16) : hexVal (hexDigitChar d) = some d := by
  interval_cases d <;> rfl

/-- Decimal digit characters are digits. -/
theorem isAsciiDigit_digitChar (n : Nat) : isAsciiDigit (Char.ofNat (48 + n % 10)) = true := by
  have : n % 10 < 10 := Nat.mod_lt n (by omega)
  unfold isAsciiDigit
  interval_cases h : n % 10 <;> rfl

/-- The characters of a printed natural number are all digits. -/
theorem natDigitsAux_digits : ∀ (fuel n : Nat), ∀ c ∈ natDigitsAux fuel n, isAsciiDigit c = true := by
  intro fuel
  induction fuel with
  | zero => intro n c hc; simp [natDigitsAux] at hc
  | succ fuel ih =>
    intro n c hc
    by_cases hn : n = 0
    · simp [natDigitsAux, hn] at hc
    · simp only [natDigitsAux, hn, if_false, List.mem_append, List.mem_singleton] at hc
      rcases hc with hc | hc
      · exact ih (n / 10) c hc
      · subst hc
        exact isAsciiDigit_digitChar n

/-- A printed natural number is never empty. -/
theorem printNat_ne_nil (n : Nat) : printNat n ≠ [] := by
  unfold printNat
  by_cases hn : n = 0
  · simp [hn]
  · simp only [hn, if_false]
    match hfn : n, hn with
    | m + 1, _ =>
      simp [natDigitsAux, hn]

/-- The characters of a printed natural number are all digits. -/
theorem printNat_digits (n : Nat) : ∀ c ∈ printNat n, isAsciiDigit c = true := by
  unfold printNat
  by_cases hn : n = 0
  · intro c hc
    simp only [hn, if_true] at hc
    simp only [List.mem_singleton] at hc
    subst hc
    rfl
  · simp only [hn, if_false]
    exact natDigitsAux_digits n n

/-- Appending one digit multiplies the value by ten and adds it. -/
theorem digitsVal_append (l : List Char) (c : Char) :
    digitsVal (l ++ [c]) = 10 * digitsVal l + (c.toNat - 48) := by
  simp [digitsVal, List.foldl_append]

/-- A printed natural number reads back to its value. -/
theorem digitsVal_natDigitsAux : ∀ (fuel n : Nat), n ≤ fuel →
    digitsVal (natDigitsAux fuel n) = n := by
  intro fuel
  induction fuel with
  | zero =>
    intro n hn
    have : n = 0 := by omega
    subst this
    rfl
  | succ fuel ih =>
    intro n hn
    by_cases h0 : n = 0
    · subst h0; rfl
    · simp only [natDigitsAux, h0, if_false]
      rw [digitsVal_append, ih (n / 10) (by omega)]
      have h1 : (Char.ofNat (48 + n % 10)).toNat = 48 + n % 10 := by
        refine toNat_char_ofNat (Or.inl ?_)
        have : n % 10 < 10 := Nat.mod_lt n (by omega)
        omega
      rw [h1]
      omega

/-- A printed natural number reads back to its value. -/
theorem digitsVal_printNat (n : Nat) : digitsVal (printNat n) = n := by
  unfold printNat
  by_cases h0 : n = 0
  · subst h0; rfl
  · simp only [h0, if_false]
    exact digitsVal_natDigitsAux n n (Nat.le_refl n)

/-! ## JSON: string escaping reads back -/

theorem psb_close (rest : List Char) : parseStringBody (dquote :: rest) = some ([], rest) := rfl

theorem psb_esc_dquote (rest : List Char) :
    parseStringBody (bslash :: dquote :: rest) =
      (parseStringBody rest).map (fun r => (dquote :: r.1, r.2)) := rfl

theorem psb_esc_bslash (rest : List Char) :
    parseStringBody (bslash :: bslash :: rest) =
      (parseStringBody rest).map (fun r => (bslash :: r.1, r.2)) := rfl

theorem psb_esc_b (rest : List Char) :
    parseStringBody (bslash :: 'b' :: rest) =
      (parseStringBody rest).map (fun r => (Char.ofNat 8 :: r.1, r.2)) := rfl

theorem psb_esc_f (rest : List Char) :
    parseStringBody (bslash :: 'f' :: rest) =
      (parseStringBody rest).map (fun r => (Char.ofNat 12 :: r.1, r.2)) := rfl

theorem psb_esc_n (rest : List Char) :
    parseStringBody (bslash :: 'n' :: rest) =
      (parseStringBody rest).map (fun r => ('\n' :: r.1, r.2)) := rfl

theorem psb_esc_r (rest : List Char) :
    parseStringBody (bslash :: 'r' :: rest) =
      (parseStringBody rest).map (fun r => ('\r' :: r.1, r.2)) := rfl

theorem psb_esc_t (rest : List Char) :
    parseStringBody (bslash :: 't' :: rest) =
      (parseStringBody rest).map (fun r => ('\t' :: r.1, r.2)) := rfl

theorem psb_raw {c : Char} (rest : List Char) (h1 : ¬c = dquote) (h2 : ¬c = bslash)
    (h3 : 32 ≤ c.toNat) :
    parseStringBody (c :: rest) = (parseStringBody rest).map (fun r => (c :: r.1, r.2)) := by
  simp [parseStringBody, psbRun, h1, h2, h3]

theorem psbRun_hex_step (acc k : Nat) (h : Char) (d : Nat) (r : List Char)
    (hh : hexVal h = some d) :
    psbRun (.hex acc (k + 2)) (h :: r) = psbRun (.hex (acc * 16 + d) (k + 1)) r := by
  simp [psbRun, hh]

theorem psbRun_hex_last (acc : Nat) (h : Char) (d : Nat) (r : List Char)
    (hh : hexVal h = some d) :
    psbRun (.hex acc 1) (h :: r) =
      if 55296 ≤ acc * 16 + d ∧ acc * 16 + d < 56320 then psbRun (.surA (acc * 16 + d)) r
      else if 56320 ≤ acc * 16 + d ∧ acc * 16 + d < 57344 then none
      else (psbRun .raw r).map (fun x => (Char.ofNat (acc * 16 + d) :: x.1, x.2)) := by
  simp [psbRun, hh]

theorem psbRun_hexLo_step (hi acc k : Nat) (h : Char) (d : Nat) (r : List Char)
    (hh : hexVal h = some d) :
    psbRun (.hexLo hi acc (k + 2)) (h :: r) = psbRun (.hexLo hi (acc * 16 + d) (k + 1)) r := by
  simp [psbRun, hh]

theorem psbRun_hexLo_last (hi acc : Nat) (h : Char) (d : Nat) (r : List Char)
    (hh : hexVal h = some d) :
    psbRun (.hexLo hi acc 1) (h :: r) =
      if 56320 ≤ acc * 16 + d ∧ acc * 16 + d < 57344 then
        (psbRun .raw r).map (fun x =>
          (Char.ofNat (65536 + (hi - 55296) * 1024 + (acc * 16 + d - 56320)) :: x.1, x.2))
      else none := by
  simp [psbRun, hh]

theorem psb_u_bmp (n : Nat) (hval : Nat.isValidChar n) (hn : n < 65536) (rest : List Char) :
    parseStringBody (bslash :: 'u' :: (hex4 n ++ rest)) =
      (parseStringBody rest).map (fun r => (Char.ofNat n :: r.1, r.2)) := by
  have e1 := hexVal_hexDigitChar (d := n / 4096 % 16) (by omega)
  have e2 := hexVal_hexDigitChar (d := n / 256 % 16) (by omega)
  have e3 := hexVal_hexDigitChar (d := n / 16 % 16) (by omega)
  have e4 := hexVal_hexDigitChar (d := n % 16) (by omega)
  have hv : (((0 * 16 + n / 4096 % 16) * 16 + n / 256 % 16) * 16 + n / 16 % 16) * 16 + n % 16
      = n := by omega
  have hns1 : ¬(55296 ≤ n ∧ n < 56320) := by
    rcases hval with h | ⟨h1, h2⟩ <;> omega
  have hns2 : ¬(56320 ≤ n ∧ n < 57344) := by
    rcases hval with h | ⟨h1, h2⟩ <;> omega
  have h0 : parseStringBody (bslash :: 'u' :: (hex4 n ++ rest)) =
      psbRun (.hex 0 4) (hex4 n ++ rest) := rfl
  rw [h0]
  simp only [hex4, List.cons_append, List.nil_append]
  rw [psbRun_hex_step 0 2 _ _ _ e1, psbRun_hex_step _ 1 _ _ _ e2,
    psbRun_hex_step _ 0 _ _ _ e3, psbRun_hex_last _ _ _ _ e4, hv,
    if_neg hns1, if_neg hns2]
  rfl

theorem psb_u_pair_aux (a b : Nat) (hras : 55296 ≤ a ∧ a < 56320)
    (hrbs : 56320 ≤ b ∧ b < 57344) (rest : List Char) :
    parseStringBody (bslash :: 'u' :: (hex4 a ++ (bslash :: 'u' :: (hex4 b ++ rest)))) =
      (parseStringBody rest).map (fun r =>
        (Char.ofNat (65536 + (a - 55296) * 1024 + (b - 56320)) :: r.1, r.2)) := by
  have e1 := hexVal_hexDigitChar (d := a / 4096 % 16) (by omega)
  have e2 := hexVal_hexDigitChar (d := a / 256 % 16) (by omega)
  have e3 := hexVal_hexDigitChar (d := a / 16 % 16) (by omega)
  have e4 := hexVal_hexDigitChar (d := a % 16) (by omega)
  have f1 := hexVal_hexDigitChar (d := b / 4096 % 16) (by omega)
  have f2 := hexVal_hexDigitChar (d := b / 256 % 16) (by omega)
  have f3 := hexVal_hexDigitChar (d := b / 16 % 16) (by omega)
  have f4 := hexVal_hexDigitChar (d := b % 16) (by omega)
  have hva : (((0 * 16 + a / 4096 % 16) * 16 + a / 256 % 16) * 16 + a / 16 % 16) * 16 + a % 16
      = a := by omega
  have hvb : (((0 * 16 + b / 4096 % 16) * 16 + b / 256 % 16) * 16 + b / 16 % 16) * 16 + b % 16
      = b := by omega
  have h0 : parseStringBody (bslash :: 'u' :: (hex4 a ++ (bslash :: 'u' :: (hex4 b ++ rest)))) =
      psbRun (.hex 0 4) (hex4 a ++ (bslash :: 'u' :: (hex4 b ++ rest))) := rfl
  rw [h0]
  simp only [hex4, List.cons_append, List.nil_append]
  rw [psbRun_hex_step 0 2 _ _ _ e1, psbRun_hex_step _ 1 _ _ _ e2,
    psbRun_hex_step _ 0 _ _ _ e3, psbRun_hex_last _ _ _ _ e4, hva, if_pos hras]
  have h1 : ∀ t : List Char, psbRun (.surA a) (bslash :: 'u' :: t) = psbRun (.hexLo a 0 4) t :=
    fun t => rfl
  rw [h1]
  rw [psbRun_hexLo_step _ 0 2 _ _ _ f1, psbRun_hexLo_step _ _ 1 _ _ _ f2,
    psbRun_hexLo_step _ _ 0 _ _ _ f3, psbRun_hexLo_last _ _ _ _ _ f4, hvb,
    if_pos hrbs]
  rfl

theorem psb_u_pair (n : Nat) (hlo : 65536 ≤ n) (hhi : n < 1114112) (rest : List Char) :
    parseStringBody (bslash :: 'u' :: (hex4 (55296 + (n - 65536) / 1024) ++
        (bslash :: 'u' :: (hex4 (56320 + (n - 65536) % 1024) ++ rest)))) =
      (parseStringBody rest).map (fun r => (Char.ofNat n :: r.1, r.2)) := by
  have hq : (n - 65536) / 1024 < 1024 := by omega
  have hr : (n - 65536) % 1024 < 1024 := Nat.mod_lt _ (by omega)
  have hqr : (n - 65536) / 1024 * 1024 + (n - 65536) % 1024 = n - 65536 := by
    rw [Nat.mul_comm]
    exact Nat.div_add_mod _ _
  have hcomb : 65536 + (55296 + (n - 65536) / 1024 - 55296) * 1024 +
      (56320 + (n - 65536) % 1024 - 56320) = n := by omega
  rw [psb_u_pair_aux _ _ (by omega) (by omega) rest, hcomb]


theorem psb_escChar (c : Char) (t : List Char) :
    parseStringBody (escChar c ++ t) = (parseStringBody t).map (fun r => (c :: r.1, r.2)) := by
  by_cases h1 : c = dquote
  · subst h1
    exact psb_esc_dquote t
  by_cases h2 : c = bslash
  · subst h2
    exact psb_esc_bslash t
  by_cases h3 : c = Char.ofNat 8
  · subst h3
    exact psb_esc_b t
  by_cases h4 : c = Char.ofNat 12
  · subst h4
    exact psb_esc_f t
  by_cases h5 : c = '\n'
  · subst h5
    exact psb_esc_n t
  by_cases h6 : c = '\r'
  · subst h6
    exact psb_esc_r t
  by_cases h7 : c = '\t'
  · subst h7
    exact psb_esc_t t
  by_cases h8 : 32 ≤ c.toNat ∧ c.toNat ≤ 126
  · rw [show escChar c = [c] from by simp [escChar, h1, h2, h3, h4, h5, h6, h7, h8]]
    exact psb_raw t h1 h2 h8.1
  by_cases h9 : c.toNat < 65536
  · rw [show escChar c = bslash :: 'u' :: hex4 c.toNat from by
      simp [escChar, h1, h2, h3, h4, h5, h6, h7, h8, h9]]
    have hval : Nat.isValidChar c.toNat := char_toNat_valid c
    simp only [List.cons_append]
    rw [psb_u_bmp c.toNat hval h9 t]
    simp [Char.ofNat_toNat]
  · have hval := char_toNat_valid c
    have hlo : 65536 ≤ c.toNat := by omega
    have hhi : c.toNat < 1114112 := by
      rcases hval with h | h <;> omega
    rw [show escChar c = bslash :: 'u' :: hex4 (55296 + (c.toNat - 65536) / 1024) ++
        bslash :: 'u' :: hex4 (56320 + (c.toNat - 65536) % 1024) from by
      simp [escChar, h1, h2, h3, h4, h5, h6, h7, h8, h9]]
    have hpair := psb_u_pair c.toNat hlo hhi t
    simp only [List.cons_append, List.append_assoc] at hpair ⊢
    rw [hpair]
    simp [Char.ofNat_toNat]

theorem psb_flatMap (cs : List Char) (t : List Char) :
    parseStringBody (cs.flatMap escChar ++ (dquote :: t)) = some (cs, t) := by
  induction cs with
  | nil => simpa using psb_close t
  | cons c cs ih =>
    rw [List.flatMap_cons, List.append_assoc, psb_escChar, ih]
    rfl

/-! ## JSON: numbers read back -/

theorem span_from_append (p : Char → Bool) : ∀ (l s : List Char), (∀ c ∈ l, p c = true) →
    (∀ c, s.head? = some c → p c = false) →
    (l ++ s).takeWhile p = l ∧ (l ++ s).dropWhile p = s := by
  intro l
  induction l with
  | nil =>
    intro s _ hs
    rcases s with _ | ⟨a, t⟩
    · simp
    · have hpa := hs a rfl
      simp [List.takeWhile_cons, List.dropWhile_cons, hpa]
  | cons c l ih =>
    intro s hl hs
    have hpc := hl c (List.mem_cons_self c l)
    have hrec := ih s (fun x hx => hl x (List.mem_cons_of_mem c hx)) hs
    simp [List.takeWhile_cons, List.dropWhile_cons, hpc, hrec.1, hrec.2]

theorem parseNatPart_printNat (n : Nat) (rest : List Char)
    (hrest : ∀ c, rest.head? = some c → isAsciiDigit c = false) :
    parseNatPart (printNat n ++ rest) = some (n, rest) := by
  have hspan := span_from_append isAsciiDigit (printNat n) rest (printNat_digits n) hrest
  unfold parseNatPart
  rw [hspan.1, hspan.2]
  simp [printNat_ne_nil n, digitsVal_printNat]

/-- A digit character is not whitespace and starts no other token. -/
theorem digit_not_reserved {d : Char} (hd : isAsciiDigit d = true) :
    isJsonWs d = false ∧ d ≠ 'n' ∧ d ≠ 't' ∧ d ≠ 'f' ∧ d ≠ dquote ∧ d ≠ Char.ofNat 45 := by
  refine ⟨?_, ?_, ?_, ?_, ?_, ?_⟩
  · cases hws : isJsonWs d with
    | false => rfl
    | true =>
      exfalso
      have hws2 := hws
      simp [isJsonWs] at hws2
      rcases hws2 with ((h | h) | h) | h <;> subst h <;> exact absurd hd (by decide)
  all_goals (intro h; subst h; exact absurd hd (by decide))

/-! ## JSON: parseVal stepping -/

theorem pv_null (fuel : Nat) (r : List Char) :
    parseVal (fuel + 1) ('n' :: 'u' :: 'l' :: 'l' :: r) = some (.null, r) := rfl

theorem pv_true (fuel : Nat) (r : List Char) :
    parseVal (fuel + 1) ('t' :: 'r' :: 'u' :: 'e' :: r) = some (.bool true, r) := rfl

theorem pv_false (fuel : Nat) (r : List Char) :
    parseVal (fuel + 1) ('f' :: 'a' :: 'l' :: 's' :: 'e' :: r) = some (.bool false, r) := rfl

theorem pv_str (fuel : Nat) (t : List Char) :
    parseVal (fuel + 1) (dquote :: t) =
      (parseStringBody t).map (fun r => (.str (String.mk r.1), r.2)) := rfl

theorem pv_neg (fuel : Nat) (t : List Char) :
    parseVal (fuel + 1) (Char.ofNat 45 :: t) =
      (parseNatPart t).map (fun r => (.int (-(r.1 : Int)), r.2)) := rfl

theorem pv_arr_nil (fuel : Nat) (r : List Char) :
    parseVal (fuel + 1) ('[' :: ']' :: r) = some (.arr [], r) := rfl

theorem pv_obj_nil (fuel : Nat) (r : List Char) :
    parseVal (fuel + 1) (lbrace :: rbrace :: r) = some (.obj [], r) := rfl

theorem pv_digit {d : Char} (fuel : Nat) (t : List Char) (hd : isAsciiDigit d = true) :
    parseVal (fuel + 1) (d :: t) =
      (parseNatPart (d :: t)).map (fun r => (.int (r.1 : Int), r.2)) := by
  obtain ⟨hw, hn, ht, hf, hq, hm⟩ := digit_not_reserved hd
  simp only [parseVal]
  rw [show dropWs (d :: t) = d :: t from dropWs_cons t hw]
  simp [hn, ht, hf, hq, hm, hd]

theorem pv_arr_cons (fuel : Nat) (t : List Char) (c2 : Char) (r2 : List Char)
    (hdrop : dropWs t = c2 :: r2) (hne : c2 ≠ ']') :
    parseVal (fuel + 1) ('[' :: t) = (parseElems fuel t).map (fun r => (.arr r.1, r.2)) := by
  simp only [parseVal]
  rw [show dropWs ('[' :: t) = '[' :: t from rfl]
  simp [hdrop, hne, show ¬('[' : Char) = dquote from by decide,
    show isAsciiDigit '[' = false from by decide]

theorem pv_obj_cons (fuel : Nat) (t : List Char) (c2 : Char) (r2 : List Char)
    (hdrop : dropWs t = c2 :: r2) (hne : c2 ≠ rbrace) :
    parseVal (fuel + 1) (lbrace :: t) =
      (parseMembers fuel t).map (fun r => (.obj (collapseKVs r.1), r.2)) := by
  simp only [parseVal]
  rw [show dropWs (lbrace :: t) = lbrace :: t from rfl]
  simp [hdrop, hne, show ¬lbrace = 'n' from by decide, show ¬lbrace = 't' from by decide,
    show ¬lbrace = 'f' from by decide, show ¬lbrace = dquote from by decide,
    show ¬lbrace = Char.ofNat 45 from by decide, show isAsciiDigit lbrace = false from by decide,
    show ¬lbrace = '[' from by decide]

theorem pv_ws (fuel : Nat) {l : List Char} (s : List Char)
    (h : ∀ c ∈ l, isJsonWs c = true) :
    parseVal fuel (l ++ s) = parseVal fuel s := by
  rcases fuel with _ | fuel
  · rfl
  · simp only [parseVal]
    rw [dropWs_append s h]

/-! ## JSON: heads of printed values, duplicate-free objects -/

/-- A digit never closes a bracket. -/
theorem digit_ne_close {d : Char} (hd : isAsciiDigit d = true) :
    d ≠ ']' ∧ d ≠ rbrace := by
  constructor <;> (intro h; subst h; exact absurd hd (by decide))

/-- What a printed value starts with: never whitespace, never a closing
bracket. -/
theorem dumpVal_head (lvl : Nat) (v : Json) : ∃ c cs, dumpVal lvl v = c :: cs ∧
    isJsonWs c = false ∧ c ≠ ']' ∧ c ≠ rbrace := by
  cases v with
  | null => refine ⟨'n', ['u', 'l', 'l'], rfl, ?_, ?_, ?_⟩ <;> decide
  | bool b =>
    cases b
    · refine ⟨'f', ['a', 'l', 's', 'e'], rfl, ?_, ?_, ?_⟩ <;> decide
    · refine ⟨'t', ['r', 'u', 'e'], rfl, ?_, ?_, ?_⟩ <;> decide
  | int n =>
    by_cases hneg : n < 0
    · refine ⟨Char.ofNat 45, printNat (-n).toNat, ?_, by decide, by decide, by decide⟩
      show printInt n = _
      rw [printInt, if_pos hneg]
    · rcases hpn : printNat n.toNat with _ | ⟨d, ds⟩
      · exact absurd hpn (printNat_ne_nil _)
      · have hmem : d ∈ printNat n.toNat := by
          rw [hpn]
          exact List.mem_cons_self d ds
        have hd : isAsciiDigit d = true := printNat_digits n.toNat d hmem
        refine ⟨d, ds, ?_, (digit_not_reserved hd).1, (digit_ne_close hd).1,
          (digit_ne_close hd).2⟩
        show printInt n = _
        rw [printInt, if_neg hneg, hpn]
  | str s =>
    refine ⟨dquote, s.toList.flatMap escChar ++ [dquote], rfl, ?_, ?_, ?_⟩ <;> decide
  | arr xs =>
    cases xs with
    | nil => refine ⟨'[', [']'], rfl, ?_, ?_, ?_⟩ <;> decide
    | cons x xs => refine ⟨'[', _, rfl, ?_, ?_, ?_⟩ <;> decide
  | obj kvs =>
    cases kvs with
    | nil => refine ⟨lbrace, [rbrace], rfl, ?_, ?_, ?_⟩ <;> decide
    | cons kv kvs =>
      rcases kv with ⟨k, v⟩
      refine ⟨lbrace, _, rfl, ?_, ?_, ?_⟩ <;> decide

/-- Inserting an unseen key appends it. -/
theorem insertKV_not_mem (k : String) (v : Json) :
    ∀ acc : List (String × Json), (∀ p ∈ acc, p.1 ≠ k) →
    insertKV acc k v = acc ++ [(k, v)] := by
  intro acc
  induction acc with
  | nil => intro _; rfl
  | cons p rest ih =>
    intro h
    rcases p with ⟨k2, v2⟩
    have hne : k2 ≠ k := h (k2, v2) (List.mem_cons_self _ _)
    simp only [insertKV, if_neg hne, List.cons_append]
    rw [ih (fun q hq => h q (List.mem_cons_of_mem _ hq))]

/-- Folding duplicate-free members over `insertKV` keeps them as they are. -/
theorem foldl_insertKV : ∀ (l acc : List (String × Json)),
    (∀ p ∈ acc, ∀ q ∈ l, p.1 ≠ q.1) → keysNodupB (l.map Prod.fst) = true →
    l.foldl (fun a kv => insertKV a kv.1 kv.2) acc = acc ++ l := by
  intro l
  induction l with
  | nil =>
    intro acc _ _
    simp
  | cons kv l ih =>
    intro acc hcross hnodup
    rcases kv with ⟨k, v⟩
    simp only [keysNodupB, List.map_cons, Bool.and_eq_true] at hnodup
    simp only [List.foldl_cons]
    rw [insertKV_not_mem k v acc (fun p hp => hcross p hp (k, v) (List.mem_cons_self _ _))]
    rw [ih (acc ++ [(k, v)]) ?_ hnodup.2]
    · simp
    · intro p hp q hq
      rcases List.mem_append.mp hp with hpa | hpk
      · exact hcross p hpa q (List.mem_cons_of_mem _ hq)
      · have hpk2 : p = (k, v) := by simpa using hpk
        subst hpk2
        have hk : k ∉ l.map Prod.fst := by
          intro hmem
          have hc := hnodup.1
          simp only [Bool.not_eq_eq_eq_not, Bool.not_true] at hc
          have he : (l.map Prod.fst).contains k = true := List.elem_eq_true_of_mem hmem
          rw [he] at hc
          cases hc
        intro heq
        refine hk ?_
        have : k = q.1 := heq
        rw [this]
        exact List.mem_map_of_mem Prod.fst hq

/-- `json.loads` keeps a duplicate-free member list as it is. -/
theorem collapseKVs_of_nodup (l : List (String × Json))
    (h : keysNodupB (l.map Prod.fst) = true) : collapseKVs l = l := by
  unfold collapseKVs
  rw [foldl_insertKV l [] (by intro p hp; exact absurd hp (List.not_mem_nil p)) h]
  rfl

/-! ## JSON: the printed document parses back -/

mutual

/-- A printed value re-parses to itself, leaving the rest of the input. -/
theorem parse_dump (v : Json) (lvl fuel : Nat) (rest : List Char)
    (hwf : wfB v = true) (hfuel : jsize v ≤ fuel)
    (hrest : ∀ c, rest.head? = some c → isAsciiDigit c = false) :
    parseVal fuel (dumpVal lvl v ++ rest) = some (v, rest) := by
  cases v with
  | null =>
    rcases hfe : fuel with _ | f
    · simp [jsize] at hfuel
      omega
    · exact pv_null f rest
  | bool b =>
    rcases hfe : fuel with _ | f
    · simp [jsize] at hfuel
      omega
    · cases b
      · exact pv_false f rest
      · exact pv_true f rest
  | int n =>
    rcases hfe : fuel with _ | f
    · simp [jsize] at hfuel
      omega
    by_cases hneg : n < 0
    · have hshape : dumpVal lvl (.int n) ++ rest = Char.ofNat 45 :: (printNat (-n).toNat ++
          rest) := by
        show printInt n ++ rest = _
        rw [printInt, if_pos hneg]
        rfl
      rw [hshape, pv_neg f, parseNatPart_printNat _ rest hrest]
      have hcast : -(((-n).toNat : Int)) = n := by omega
      show some (Json.int (-(((-n).toNat : Int))), rest) = some (Json.int n, rest)
      rw [hcast]
    · rcases hpn : printNat n.toNat with _ | ⟨d, ds⟩
      · exact absurd hpn (printNat_ne_nil _)
      have hmem : d ∈ printNat n.toNat := by
        rw [hpn]
        exact List.mem_cons_self d ds
      have hd := printNat_digits n.toNat d hmem
      have hshape : dumpVal lvl (.int n) ++ rest = d :: (ds ++ rest) := by
        show printInt n ++ rest = _
        rw [printInt, if_neg hneg, hpn]
        rfl
      rw [hshape, pv_digit f _ hd]
      have hback : (d :: (ds ++ rest)) = printNat n.toNat ++ rest := by
        rw [hpn]
        rfl
      rw [hback, parseNatPart_printNat _ rest hrest]
      have hcast : ((n.toNat : Int)) = n := by omega
      show some (Json.int ((n.toNat : Int)), rest) = some (Json.int n, rest)
      rw [hcast]
  | str str0 =>
    rcases hfe : fuel with _ | f
    · simp [jsize] at hfuel
      omega
    have hshape : dumpVal lvl (.str str0) ++ rest =
        dquote :: (str0.toList.flatMap escChar ++ (dquote :: rest)) := by
      show dumpStr str0 ++ rest = _
      simp [dumpStr]
    rw [hshape, pv_str f, psb_flatMap]
    rfl
  | arr xs =>
    cases xs with
    | nil =>
      rcases hfe : fuel with _ | f
      · simp [jsize, jsizeList] at hfuel
        omega
      · exact pv_arr_nil f rest
    | cons x xs =>
      rcases hfe : fuel with _ | f
      · simp only [jsize] at hfuel
        omega
      have hwf2 : wfB x = true ∧ wfList xs = true := by
        simp only [wfB, wfList, Bool.and_eq_true] at hwf
        exact hwf
      have hfuel2 : jsizeList (x :: xs) ≤ f := by
        simp only [jsize] at hfuel
        omega
      obtain ⟨c, cs, hcons, hcws, hcne, _⟩ := dumpVal_head (lvl + 1) x
      have hshape : dumpVal lvl (.arr (x :: xs)) ++ rest =
          '[' :: (nlIndent (lvl + 1) ++ (dumpVal (lvl + 1) x ++ (dumpItems (lvl + 1) xs ++
            (nlIndent lvl ++ (']' :: rest))))) := by
        simp [dumpVal, List.cons_append, List.append_assoc]
      have hdrop : dropWs (nlIndent (lvl + 1) ++ (dumpVal (lvl + 1) x ++
          (dumpItems (lvl + 1) xs ++ (nlIndent lvl ++ (']' :: rest))))) =
          c :: (cs ++ (dumpItems (lvl + 1) xs ++ (nlIndent lvl ++ (']' :: rest)))) := by
        rw [dropWs_append _ (nlIndent_ws _), hcons]
        simp only [List.cons_append]
        exact dropWs_cons _ hcws
      rw [hshape, pv_arr_cons f _ c _ hdrop hcne]
      rw [parse_dump_items x xs (lvl + 1) lvl f rest hwf2.1 hwf2.2 hfuel2]
      rfl
  | obj kvs =>
    cases kvs with
    | nil =>
      rcases hfe : fuel with _ | f
      · simp [jsize, jsizeFields] at hfuel
        omega
      · exact pv_obj_nil f rest
    | cons kv kvs =>
      rcases kv with ⟨k, v⟩
      rcases hfe : fuel with _ | f
      · simp only [jsize] at hfuel
        omega
      have hwfa : keysNodupB (((k, v) :: kvs).map Prod.fst) = true ∧
          (wfB v = true ∧ wfFields kvs = true) := by
        simp only [wfB, wfFields, Bool.and_eq_true] at hwf
        exact hwf
      have hfuel2 : jsizeFields ((k, v) :: kvs) ≤ f := by
        simp only [jsize] at hfuel
        omega
      have hshape : dumpVal lvl (.obj ((k, v) :: kvs)) ++ rest =
          lbrace :: (nlIndent (lvl + 1) ++ (dumpStr k ++ (':' :: ' ' ::
            (dumpVal (lvl + 1) v ++ (dumpMembers (lvl + 1) kvs ++
              (nlIndent lvl ++ (rbrace :: rest))))))) := by
        simp [dumpVal, List.cons_append, List.append_assoc]
      have hdrop : dropWs (nlIndent (lvl + 1) ++ (dumpStr k ++ (':' :: ' ' ::
          (dumpVal (lvl + 1) v ++ (dumpMembers (lvl + 1) kvs ++
            (nlIndent lvl ++ (rbrace :: rest))))))) =
          dquote :: ((k.toList.flatMap escChar ++ [dquote]) ++ (':' :: ' ' ::
            (dumpVal (lvl + 1) v ++ (dumpMembers (lvl + 1) kvs ++
              (nlIndent lvl ++ (rbrace :: rest)))))) := by
        rw [dropWs_append _ (nlIndent_ws _)]
        simp only [dumpStr, List.cons_append]
        exact dropWs_cons _ (by decide)
      rw [hshape, pv_obj_cons f _ dquote _ hdrop (by decide)]
      rw [parse_dump_mems k v kvs (lvl + 1) lvl f rest hwfa.2.1 hwfa.2.2 hfuel2]
      simp [collapseKVs_of_nodup _ hwfa.1]
termination_by fuel
decreasing_by all_goals omega

/-- Printed elements re-parse to themselves, consuming the closing bracket. -/
theorem parse_dump_items (x : Json) (xs : List Json) (lvl lvl2 fuel : Nat) (rest : List Char)
    (hwfx : wfB x = true) (hwfxs : wfList xs = true) (hfuel : jsizeList (x :: xs) ≤ fuel) :
    parseElems fuel (nlIndent lvl ++ (dumpVal lvl x ++ (dumpItems lvl xs ++
      (nlIndent lvl2 ++ (']' :: rest))))) = some (x :: xs, rest) := by
  rcases hfe : fuel with _ | f
  · simp only [jsizeList] at hfuel
    omega
  have hx : jsize x ≤ f := by
    simp only [jsizeList] at hfuel
    omega
  have hnd : ∀ c, (dumpItems lvl xs ++ (nlIndent lvl2 ++ (']' :: rest))).head? = some c →
      isAsciiDigit c = false := by
    cases xs with
    | nil =>
      intro c hc
      simp [dumpItems, nlIndent] at hc
      rw [← hc]
      rfl
    | cons y ys =>
      intro c hc
      simp [dumpItems] at hc
      rw [← hc]
      rfl
  have hpv : parseVal f (nlIndent lvl ++ (dumpVal lvl x ++ (dumpItems lvl xs ++
      (nlIndent lvl2 ++ (']' :: rest))))) =
      some (x, dumpItems lvl xs ++ (nlIndent lvl2 ++ (']' :: rest))) := by
    rw [pv_ws f _ (nlIndent_ws lvl)]
    exact parse_dump x lvl f _ hwfx hx hnd
  simp only [parseElems]
  cases xs with
  | nil =>
    have hdrop2 : dropWs (dumpItems lvl ([] : List Json) ++ (nlIndent lvl2 ++ (']' :: rest))) =
        ']' :: rest := by
      simp only [dumpItems, List.nil_append]
      rw [dropWs_append _ (nlIndent_ws _)]
      exact dropWs_cons _ (by decide)
    simp [hpv, hdrop2, show ¬(']' : Char) = ',' from by decide]
  | cons y ys =>
    have hwfy : wfB y = true ∧ wfList ys = true := by
      simp only [wfList, Bool.and_eq_true] at hwfxs
      exact hwfxs
    have hfy : jsizeList (y :: ys) ≤ f := by
      simp only [jsizeList] at hfuel ⊢
      omega
    have hdrop2 : dropWs (dumpItems lvl (y :: ys) ++ (nlIndent lvl2 ++ (']' :: rest))) =
        ',' :: (nlIndent lvl ++ (dumpVal lvl y ++ (dumpItems lvl ys ++
          (nlIndent lvl2 ++ (']' :: rest))))) := by
      simp only [dumpItems, List.cons_append, List.append_assoc]
      exact dropWs_cons _ (by decide)
    have hrec := parse_dump_items y ys lvl lvl2 f rest hwfy.1 hwfy.2 hfy
    simp [hpv, hdrop2, hrec]
termination_by fuel
decreasing_by all_goals omega

/-- Printed members re-parse to themselves, consuming the closing brace. -/
theorem parse_dump_mems (k : String) (v : Json) (kvs : List (String × Json))
    (lvl lvl2 fuel : Nat) (rest : List Char)
    (hwfv : wfB v = true) (hwfk : wfFields kvs = true)
    (hfuel : jsizeFields ((k, v) :: kvs) ≤ fuel) :
    parseMembers fuel (nlIndent lvl ++ (dumpStr k ++ (':' :: ' ' :: (dumpVal lvl v ++
      (dumpMembers lvl kvs ++ (nlIndent lvl2 ++ (rbrace :: rest))))))) =
      some ((k, v) :: kvs, rest) := by
  rcases hfe : fuel with _ | f
  · simp only [jsizeFields] at hfuel
    omega
  have hv : jsize v ≤ f := by
    simp only [jsizeFields] at hfuel
    omega
  have hdrop : dropWs (nlIndent lvl ++ (dumpStr k ++ (':' :: ' ' :: (dumpVal lvl v ++
      (dumpMembers lvl kvs ++ (nlIndent lvl2 ++ (rbrace :: rest))))))) =
      dquote :: ((k.toList.flatMap escChar ++ [dquote]) ++ (':' :: ' ' :: (dumpVal lvl v ++
        (dumpMembers lvl kvs ++ (nlIndent lvl2 ++ (rbrace :: rest)))))) := by
    rw [dropWs_append _ (nlIndent_ws _)]
    simp only [dumpStr, List.cons_append]
    exact dropWs_cons _ (by decide)
  have hstr := psb_flatMap k.toList (':' :: ' ' :: (dumpVal lvl v ++ (dumpMembers lvl kvs ++
    (nlIndent lvl2 ++ (rbrace :: rest)))))
  simp only [String.toList] at hstr
  have hnd : ∀ c, (dumpMembers lvl kvs ++ (nlIndent lvl2 ++ (rbrace :: rest))).head? = some c →
      isAsciiDigit c = false := by
    cases kvs with
    | nil =>
      intro c hc
      simp [dumpMembers, nlIndent] at hc
      rw [← hc]
      rfl
    | cons p ps =>
      intro c hc
      rcases p with ⟨k2, v2⟩
      simp [dumpMembers] at hc
      rw [← hc]
      rfl
  have hpv : parseVal f (' ' :: (dumpVal lvl v ++ (dumpMembers lvl kvs ++
      (nlIndent lvl2 ++ (rbrace :: rest))))) =
      some (v, dumpMembers lvl kvs ++ (nlIndent lvl2 ++ (rbrace :: rest))) := by
    rw [show (' ' :: (dumpVal lvl v ++ (dumpMembers lvl kvs ++
      (nlIndent lvl2 ++ (rbrace :: rest))))) = [' '] ++ (dumpVal lvl v ++
        (dumpMembers lvl kvs ++ (nlIndent lvl2 ++ (rbrace :: rest)))) from rfl]
    rw [pv_ws f _ (by intro c hc; simp at hc; rw [hc]; rfl)]
    exact parse_dump v lvl f _ hwfv hv hnd
  have hcol : dropWs (':' :: ' ' :: (dumpVal lvl v ++ (dumpMembers lvl kvs ++
      (nlIndent lvl2 ++ (rbrace :: rest))))) = ':' :: ' ' :: (dumpVal lvl v ++
      (dumpMembers lvl kvs ++ (nlIndent lvl2 ++ (rbrace :: rest)))) :=
    dropWs_cons _ (by decide)
  simp only [parseMembers]
  cases kvs with
  | nil =>
    have hdropm : dropWs (dumpMembers lvl ([] : List (String × Json)) ++
        (nlIndent lvl2 ++ (rbrace :: rest))) = rbrace :: rest := by
      simp only [dumpMembers, List.nil_append]
      rw [dropWs_append _ (nlIndent_ws _)]
      exact dropWs_cons _ (by decide)
    simp [hdrop, hstr, hpv, hdropm, hcol, show ¬rbrace = ',' from by decide,
      show ¬dquote = ':' from by decide, show String.mk k.data = k from rfl]
  | cons p ps =>
    rcases p with ⟨k2, v2⟩
    have hwfp : wfB v2 = true ∧ wfFields ps = true := by
      simp only [wfFields, Bool.and_eq_true] at hwfk
      exact hwfk
    have hfp : jsizeFields ((k2, v2) :: ps) ≤ f := by
      simp only [jsizeFields] at hfuel ⊢
      omega
    have hdropm : dropWs (dumpMembers lvl ((k2, v2) :: ps) ++
        (nlIndent lvl2 ++ (rbrace :: rest))) =
        ',' :: (nlIndent lvl ++ (dumpStr k2 ++ (':' :: ' ' :: (dumpVal lvl v2 ++
          (dumpMembers lvl ps ++ (nlIndent lvl2 ++ (rbrace :: rest))))))) := by
      simp only [dumpMembers, List.cons_append, List.append_assoc]
      exact dropWs_cons _ (by decide)
    have hrec := parse_dump_mems k2 v2 ps lvl lvl2 f rest hwfp.1 hwfp.2 hfp
    simp [hdrop, hstr, hpv, hdropm, hrec, hcol, show String.mk k.data = k from rfl]
termination_by fuel
decreasing_by all_goals omega

end

mutual

/-- The parser fuel a printed value needs is at most its printed length. -/
theorem jsize_le_dumpVal (lvl : Nat) (v : Json) : jsize v ≤ (dumpVal lvl v).length := by
  cases v with
  | null => exact (by decide : jsize Json.null ≤ ("null".toList).length)
  | bool b =>
    cases b
    · exact (by decide : jsize (Json.bool false) ≤ ("false".toList).length)
    · exact (by decide : jsize (Json.bool true) ≤ ("true".toList).length)
  | int n =>
    show 1 ≤ (printInt n).length
    by_cases h : n < 0
    · simp [printInt, h]
    · simp only [printInt, if_neg h]
      exact List.length_pos.mpr (printNat_ne_nil n.toNat)
  | str str0 =>
    show 1 ≤ (dumpStr str0).length
    simp [dumpStr]
  | arr xs =>
    cases xs with
    | nil => exact (by decide : jsize (Json.arr []) ≤ (['[', ']'] : List Char).length)
    | cons x xs =>
      have h1 := jsize_le_dumpVal (lvl + 1) x
      have h2 := jsizeList_le_dumpItems (lvl + 1) xs
      simp only [jsize, jsizeList, dumpVal, List.length_cons, List.length_append, nlIndent,
        List.length_replicate]
      omega
  | obj kvs =>
    cases kvs with
    | nil => exact (by decide : jsize (Json.obj []) ≤ ([lbrace, rbrace] : List Char).length)
    | cons kv kvs =>
      rcases kv with ⟨k, v⟩
      have h1 := jsize_le_dumpVal (lvl + 1) v
      have h2 := jsizeFields_le_dumpMembers (lvl + 1) kvs
      simp only [jsize, jsizeFields, dumpVal, dumpStr, List.length_cons, List.length_append,
        nlIndent, List.length_replicate]
      omega

theorem jsizeList_le_dumpItems (lvl : Nat) (xs : List Json) :
    jsizeList xs ≤ (dumpItems lvl xs).length := by
  cases xs with
  | nil => exact (by decide : jsizeList [] ≤ ([] : List Char).length)
  | cons y ys =>
    have h1 := jsize_le_dumpVal lvl y
    have h2 := jsizeList_le_dumpItems lvl ys
    simp only [jsizeList, dumpItems, List.length_cons, List.length_append, nlIndent,
      List.length_replicate]
    omega

theorem jsizeFields_le_dumpMembers (lvl : Nat) (kvs : List (String × Json)) :
    jsizeFields kvs ≤ (dumpMembers lvl kvs).length := by
  cases kvs with
  | nil => exact (by decide : jsizeFields [] ≤ ([] : List Char).length)
  | cons kv kvs =>
    rcases kv with ⟨k, v⟩
    have h1 := jsize_le_dumpVal lvl v
    have h2 := jsizeFields_le_dumpMembers lvl kvs
    simp only [jsizeFields, dumpMembers, dumpStr, List.length_cons, List.length_append,
      nlIndent, List.length_replicate]
    omega

end

/-- Round trip: a printed well-formed value loads back as itself. -/
theorem loads_dumps (v : Json) (hwf : wfB v = true) : loads (dumps v) = some v := by
  have hb := jsize_le_dumpVal 0 v
  have h1 : (dumps v).toList = dumpVal 0 v := rfl
  unfold loads
  rw [h1]
  have h2 : parseVal ((dumpVal 0 v).length + 1) (dumpVal 0 v) = some (v, []) := by
    have h3 := parse_dump v 0 ((dumpVal 0 v).length + 1) [] hwf (by omega)
      (fun c hc => by simp at hc)
    simpa using h3
  rw [h2]
  rfl

/-! ## Claims C3, C6 and C8: the two stores -/

/-- C3: for every list name, every storable contacts value (a Python object
graph: object keys never repeat), and every prior state of the on-disk store —
including a pre-existing file of arbitrary content under that name —
`save_list(name, contacts)` followed by `load_list(name)` returns exactly
`contacts`, and the file written for that name depends only on the `contacts`
argument, not on the store's previous state: a whole-file overwrite. -/
theorem claimC3_save_then_load (name : String) (contacts : Json) (st : Store)
    (hwf : wfB contacts = true) :
    load_list name (save_list name contacts st) = .ok contacts ∧
    (∀ st2 : Store, save_list name contacts st name = save_list name contacts st2 name) := by
  have hwf2 : wfB (Json.obj [("contacts", contacts)]) = true := by
    simp [wfB, wfFields, keysNodupB, hwf]
  constructor
  · unfold load_list
    rw [show save_list name contacts st name =
      .content (dumps (Json.obj [("contacts", contacts)])) from by simp [save_list]]
    simp [loads_dumps _ hwf2, jsonGet]
  · intro st2
    simp [save_list]

theorem claimC3_witness :
    load_list "guests" (save_list "guests" (Json.arr [Json.str "ann"])
      (fun _ => FileState.content "junk")) = .ok (Json.arr [Json.str "ann"]) :=
  (claimC3_save_then_load "guests" (Json.arr [Json.str "ann"])
    (fun _ => FileState.content "junk") (by rfl)).1

/-- C6: for every storable contacts value and every prior state of the cache
file, `save_contacts_cache(contacts)` followed by `load_cached_contacts()`
returns exactly `contacts`. -/
theorem claimC6_cache_roundtrip (contacts : Json) (st : FileState)
    (hwf : wfB contacts = true) :
    load_cached_contacts (save_contacts_cache contacts st) = .ok (some contacts) := by
  have hwf2 : wfB (Json.obj [("contacts", contacts)]) = true := by
    simp [wfB, wfFields, keysNodupB, hwf]
  unfold load_cached_contacts save_contacts_cache
  simp [loads_dumps _ hwf2, jsonGet]

theorem claimC6_witness :
    load_cached_contacts (save_contacts_cache (Json.arr [Json.int 7]) FileState.absent) =
      .ok (some (Json.arr [Json.int 7])) :=
  claimC6_cache_roundtrip (Json.arr [Json.int 7]) FileState.absent (by rfl)

/-- C8 counterexample: the claim says `load_list` never raises at its public
interface, but a list file holding valid JSON that is not an object — here the
document `[]` — parses fine and then crashes `data.get("contacts", [])` with
`AttributeError`, which line 58-68 of the source does not catch. -/
theorem claimC8_counterexample :
    load_list "x" (fun _ => FileState.content "[]") = .error .attributeError := rfl

/-- C8 (amended): `load_list(name)` returns the empty list when the file is
missing or unreadable, when its content is not valid JSON, and when it parses
to an object without a `contacts` key; but when the content parses to a
non-object JSON value, the uncaught `AttributeError` from `data.get`
propagates. -/
theorem claimC8_amended (name : String) (st : Store) :
    (st name = .absent ∨ st name = .ioFail → load_list name st = .ok (Json.arr [])) ∧
    (∀ s, st name = .content s → loads s = none → load_list name st = .ok (Json.arr [])) ∧
    (∀ s kvs, st name = .content s → loads s = some (.obj kvs) →
      (∀ p ∈ kvs, p.1 ≠ "contacts") → load_list name st = .ok (Json.arr [])) ∧
    (∀ s v, st name = .content s → loads s = some v → (∀ kvs, v ≠ .obj kvs) →
      load_list name st = .error .attributeError) := by
  refine ⟨?_, ?_, ?_, ?_⟩
  · intro h
    rcases h with h | h <;> simp [load_list, h]
  · intro s hs hl
    simp [load_list, hs, hl]
  · intro s kvs hs hl hk
    have hfind : kvs.find? (fun kv => kv.1 == "contacts") = none := by
      rw [List.find?_eq_none]
      intro p hp
      simp only [beq_iff_eq]
      exact hk p hp
    simp [load_list, hs, hl, jsonGet, hfind]
  · intro s v hs hl hne
    cases v with
    | obj kvs => exact absurd rfl (hne kvs)
    | null => simp [load_list, hs, hl]
    | bool b => simp [load_list, hs, hl]
    | int n => simp [load_list, hs, hl]
    | str t => simp [load_list, hs, hl]
    | arr xs => simp [load_list, hs, hl]

theorem claimC8_witness :
    load_list "x" (fun _ => FileState.absent) = .ok (Json.arr []) :=
  (claimC8_amended "x" (fun _ => FileState.absent)).1 (Or.inl rfl)

end PartyPlanner
